import Mathlib

/-!
Verification of `scripts/upload-json.js` from the golf-round-spa repository:
a command-line tool that reads a JSON document (inline `--data`, `--input`
file, or stdin), validates and re-serializes it, and uploads it to a cloud
storage bucket (or reports a dry run).

The JavaScript source is shallowly embedded: pure functions (`normalizeKey`,
`parseArgs`, `inferDestination`, `preparePayload`) become Lean functions;
the effectful parts (`getInput`, `main`) take an explicit environment
(file system, stdin, upload outcome) and produce a trace of observable
events.  The platform builtins `JSON.parse` / `JSON.stringify` are embedded
as an executable parser and serializer for the ECMA-404 JSON grammar.
JavaScript represents numbers as IEEE-754 binary64 values; the embedding
carries each number at the value level — sign, significant decimal digits
and decimal-point position, in the canonical form `Number::toString`
emits — with literal overflow to `±Infinity` at the exact binary64
threshold `2^1024 − 2^970` (so `JSON.parse('1e999')` is an infinity and
`JSON.stringify` turns it into `null`, and `1.0` re-serializes as `1`).
One abstraction remains and is used by no theorem below: a finite value
is carried with all its decimal digits, whereas binary64 would round it
to 53 bits of mantissa, so two literals closer than an ULP (more than
~17 significant digits) stay distinct here but collapse in JS; negative
zero, which JS folds into `"0"` on output, is conflated with zero.
String case-folding in `normalizeKey` is modelled on the ASCII range
(the option table only contains ASCII keys).
-/

namespace UploadJson

/-- A value stored in the parsed option mapping: JavaScript's `parseArgs`
stores either a string or the boolean `true` (never `false`). -/
inductive ArgVal where
  | str (s : String)
  | tru
deriving DecidableEq, Repr

/-- The option mapping built by `parseArgs`: a JavaScript object, modelled
as an association list whose `setKey` updates in place (first occurrence
keeps its position, the value is overwritten) exactly like JS property
assignment. -/
abbrev Args := List (String × ArgVal)

/-- `args[key] = value` on a JS object: overwrite in place if the key
exists, otherwise append. -/
def setKey : Args → String → ArgVal → Args
  | [], k, v => [(k, v)]
  | (k', v') :: rest, k, v =>
      if k' = k then (k, v) :: rest else (k', v') :: setKey rest k v

/-- Property lookup `args.key` (an absent key reads as `undefined`). -/
def getArg : Args → String → Option ArgVal
  | [], _ => none
  | (k', v) :: rest, k => if k' = k then some v else getArg rest k

/-- JavaScript truthiness of `args.key`: `undefined` and the empty string
are falsy; `true` and non-empty strings are truthy. -/
def truthy : Option ArgVal → Bool
  | none => false
  | some .tru => true
  | some (.str s) => !s.isEmpty

/-- JavaScript `String(v)` on a stored option value. -/
def coerceToString : ArgVal → String
  | .str s => s
  | .tru => "true"

/-- JavaScript string coercion of a possibly-absent option value, as a
template literal performs it (`undefined` prints as `"undefined"`). -/
def jsString : Option ArgVal → String
  | none => "undefined"
  | some v => coerceToString v

/-- The eleven canonical option names `normalizeKey` can produce. -/
def canonicalKeys : List String :=
  ["bucket", "destination", "input", "project", "credentials", "data",
   "stdin", "compact", "cacheControl", "dryRun", "help"]

/-- `rawKey.toLowerCase()` as far as alias-table matching can observe it:
ASCII letters fold, and the Kelvin sign U+212A — the one non-ASCII code
point whose JS lowercase is an ASCII letter — becomes `k`.  Every other
non-ASCII character keeps mapping outside the all-ASCII table (Unicode
special mappings such as `İ` produce multi-character strings, which can
never equal a table key), so it is left unchanged. -/
def lowerKey (s : String) : String :=
  String.mk (s.data.map (fun c => if c.toNat = 0x212A then 'k' else c.toLower))

/-- `normalizeKey` from the source: lowercase the raw key and look it up in
the fixed alias table, `none` when unrecognized. -/
def normalizeKey (rawKey : String) : Option String :=
  match lowerKey rawKey with
  | "b" | "bucket" => some "bucket"
  | "d" | "dest" | "destination" => some "destination"
  | "i" | "input" => some "input"
  | "p" | "project" => some "project"
  | "credentials" | "key-file" | "keyfile" => some "credentials"
  | "data" => some "data"
  | "stdin" => some "stdin"
  | "compact" => some "compact"
  | "cache-control" | "cachecontrol" => some "cacheControl"
  | "dry-run" | "dryrun" => some "dryRun"
  | "h" | "help" => some "help"
  | _ => none

/-- `token.startsWith('-')`, decided on the character list. -/
def startsDash (s : String) : Bool :=
  match s.data with
  | '-' :: _ => true
  | _ => false

/-- Split a token body at the first `'='`: the key characters, and the
inline value characters when a `'='` is present (JS `indexOf`/`slice`). -/
def splitEq : List Char → List Char × Option (List Char)
  | [] => ([], none)
  | '=' :: r => ([], some r)
  | c :: r =>
      let p := splitEq r
      (c :: p.1, p.2)

/-- The loop of `parseArgs`: walk the token list left to right.
Tokens not starting with `-` are skipped; a single leading dash is
normalized to a double dash (so the body is the characters after the
leading one-or-two dashes); the body splits at the first `=`; remaining
leading dashes are stripped from the key (`key.replace(/^-+/, '')`);
unrecognized keys are dropped; with no inline value the next token is
consumed as the value unless it is absent or starts with `-`, in which
case the value is boolean `true`.  The JS `for` loop advances its index
at least once per iteration, so its iteration count is bounded by the
token count; `fuel` is that bound, making the recursion structural
(`parseArgs` supplies enough for the whole list). -/
def parseArgsAux : Nat → Args → List String → Args
  | 0, args, _ => args
  | _ + 1, args, [] => args
  | fuel + 1, args, tok :: rest =>
    match tok.data with
    | '-' :: afterDash =>
      let body := match afterDash with
        | '-' :: b => b
        | b => b
      let p := splitEq body
      match normalizeKey (String.mk (p.1.dropWhile (fun c => c = '-'))) with
      | none => parseArgsAux fuel args rest
      | some key =>
        match p.2 with
        | some v => parseArgsAux fuel (setKey args key (.str (String.mk v))) rest
        | none =>
          match rest with
          | [] => setKey args key .tru
          | next :: rest' =>
            if startsDash next then parseArgsAux fuel (setKey args key .tru) (next :: rest')
            else parseArgsAux fuel (setKey args key (.str next)) rest'
    | _ => parseArgsAux fuel args rest

/-- `parseArgs(argv)` from the source. -/
def parseArgs (argv : List String) : Args := parseArgsAux argv.length [] argv

/-!
### Number values

`JSON.parse` converts a number literal to a binary64 double.  The value is
carried here in the canonical decimal form ECMA's `Number::toString`
works with: zero, an infinity, or `±s·10^(n−k)` where `s` holds the
significant digits (never a multiple of ten), `k` is the digit count of
`s`, and `n` locates the decimal point (see the header note for the one
remaining abstraction: finite values keep all their decimal digits
instead of rounding to 53 bits).
-/

/-- The decimal digit character for `d % 10`. -/
def digitChar (d : Nat) : Char := Char.ofNat (0x30 + d % 10)

/-- Decimal digits of `m`, most significant first.  The fuel only bounds
the recursion depth (the argument shrinks by a factor of ten each step,
so `m + 1` always suffices). -/
def natDigitsAux : Nat → Nat → List Char
  | 0, _ => []
  | fuel + 1, m =>
    if m < 10 then [digitChar m]
    else natDigitsAux fuel (m / 10) ++ [digitChar (m % 10)]

/-- The decimal digit characters of `m`, most significant first. -/
def natDigits (m : Nat) : List Char := natDigitsAux (m + 1) m

/-- The numeric value of a digit-character list, most significant first. -/
def digitsVal (l : List Char) : Nat :=
  l.foldl (fun a c => a * 10 + (c.toNat - 0x30)) 0

/-- Remove the factors of ten from `m`: `(s, z)` with `m = s * 10 ^ z` and
ten not dividing `s` whenever the fuel covers `m` (callers pass `m`). -/
def strip10 : Nat → Nat → Nat × Nat
  | 0, m => (m, 0)
  | fuel + 1, m =>
    if m % 10 = 0 && m != 0 then
      let p := strip10 fuel (m / 10)
      (p.1, p.2 + 1)
    else (m, 0)

/-- The least magnitude a binary64 round-to-nearest sends to infinity:
the midpoint `2^1024 − 2^970` between the largest finite double and
`2^1024` (ties-to-even rounds it up, overflowing). -/
def ovflNat : Nat := 2 ^ 1024 - 2 ^ 970

/-- Does `s·10^(n−k)` (with `k` the digit count of `s`) reach the
overflow threshold?  Exact integer comparison on either side of the
decimal point. -/
def geOvfl (s : Nat) (n : Int) : Bool :=
  let k : Int := (natDigits s).length
  if 0 ≤ n - k then ovflNat ≤ s * 10 ^ (n - k).toNat
  else ovflNat * 10 ^ (k - n).toNat ≤ s

/-- A JavaScript number value as `JSON.parse` produces it: a finite value
in canonical decimal form (`fin false 0 0` is zero; otherwise `s` is not
a multiple of ten), or an infinity from literal overflow.  `NaN` is not
in the image of the JSON grammar. -/
inductive JsNum where
  | fin (neg : Bool) (s : Nat) (n : Int)
  | inf (neg : Bool)
deriving DecidableEq, Repr

/-- Build the canonical number value of magnitude `m·10^E` with sign
`neg` (`m` the concatenated literal digits, `E` the exponent minus the
fraction length), overflowing to an infinity at the binary64 boundary. -/
def mkJsNum (neg : Bool) (m : Nat) (E : Int) : JsNum :=
  if m = 0 then .fin false 0 0
  else
    let p := strip10 m m
    let n : Int := E + p.2 + (natDigits p.1).length
    if geOvfl p.1 n then .inf neg else .fin neg p.1 n

/-- ECMA `Number::toString` (radix 10) on a positive canonical value
`s·10^(n−k)`: positional digits for `k ≤ n ≤ 21` (an integer, zeros
appended) and `0 < n ≤ 21` (decimal point inside the digits); a
`0.`-prefixed form down to `n = −5`; exponent notation `d[.ddd]e±x`
beyond either end. -/
def printPos (s : Nat) (n : Int) : List Char :=
  let ds := natDigits s
  let k : Int := ds.length
  if k ≤ n && n ≤ 21 then ds ++ List.replicate (n - k).toNat '0'
  else if 0 < n && n ≤ 21 then ds.take n.toNat ++ '.' :: ds.drop n.toNat
  else if -6 < n && n ≤ 0 then '0' :: '.' :: (List.replicate (-n).toNat '0' ++ ds)
  else
    (match ds with
     | [] => []
     | [d] => [d]
     | d :: t => d :: '.' :: t)
      ++ 'e' :: (if n - 1 < 0 then '-' else '+') :: natDigits (n - 1).natAbs

/-- `JSON.stringify`'s serialization of a number value: `String(double)`
for a finite value, `"null"` for an infinity (`SerializeJSONProperty`
step: non-finite numbers serialize as `null`). -/
def printNum : JsNum → List Char
  | .inf _ => ['n', 'u', 'l', 'l']
  | .fin neg s n =>
      if s = 0 then ['0']
      else (if neg then ['-'] else []) ++ printPos s n

/-- The canonical-form invariant of every number `JSON.parse` emits:
zero is exactly `fin false 0 0`; a non-zero finite value has significant
digits not divisible by ten and lies below the overflow threshold (else
it would have become an infinity). -/
def wfNum : JsNum → Bool
  | .inf _ => true
  | .fin neg s n =>
      if s = 0 then !neg && decide (n = 0)
      else decide (s % 10 ≠ 0) && !(geOvfl s n)

/-!
### The JSON value grammar

`JSON.parse` / `JSON.stringify` are ECMAScript builtins; they are embedded
below as an executable recursive-descent parser and the `SerializeJSONProperty`
algorithm.  A number is carried as its `JsNum` value; a JS object is an
association list in insertion order, with a duplicate source key keeping
the first occurrence's position and the last occurrence's value, as JS
property assignment does.
-/

/-- A parsed JSON value. -/
inductive Json where
  | null
  | bool (b : Bool)
  | num (v : JsNum)
  | str (s : String)
  | arr (elems : List Json)
  | obj (members : List (String × Json))

/-- Does an object member list bind `k`? -/
def hasKey : List (String × Json) → String → Bool
  | [], _ => false
  | (k', _) :: ms, k => k' = k || hasKey ms k

/-- All member keys distinct. -/
def noDupKeys : List (String × Json) → Bool
  | [] => true
  | (k, _) :: ms => !hasKey ms k && noDupKeys ms

/-- JS property assignment `obj[k] = v` on an insertion-ordered member
list: overwrite in place, or append a fresh key. -/
def setMember : List (String × Json) → String → Json → List (String × Json)
  | [], k, v => [(k, v)]
  | (k', v') :: ms, k, v =>
      if k' = k then (k, v) :: ms else (k', v') :: setMember ms k v

/-- Replay the members of an object literal in source order through JS
property assignment: the last value for a duplicated key wins, at the
first occurrence's position. -/
def dedupMembers (ms : List (String × Json)) : List (String × Json) :=
  ms.foldl (fun acc m => setMember acc m.1 m.2) []

/-- JSON insignificant whitespace: space, tab, line feed, carriage return. -/
def isWsChar (c : Char) : Bool := c = ' ' || c = '\t' || c = '\n' || c = '\r'

def isDigitChar (c : Char) : Bool := '0' ≤ c && c ≤ '9'

/-- A character that can occur inside a number token. -/
def isNumChar (c : Char) : Bool :=
  isDigitChar c || c = '-' || c = '+' || c = '.' || c = 'e' || c = 'E'

/-- Drop leading JSON whitespace. -/
def skipWs : List Char → List Char
  | c :: cs => if isWsChar c then skipWs cs else c :: cs
  | [] => []

/-- The longest prefix of decimal digits, and the remainder. -/
def digitSpan : List Char → List Char × List Char
  | c :: cs =>
      if isDigitChar c then
        let p := digitSpan cs
        (c :: p.1, p.2)
      else ([], c :: cs)
  | [] => ([], [])

/-- The longest prefix of number-token characters, and the remainder. -/
def takeNum : List Char → List Char × List Char
  | c :: cs =>
      if isNumChar c then
        let p := takeNum cs
        (c :: p.1, p.2)
      else ([], c :: cs)
  | [] => ([], [])

/-- Validate the exponent part of a JSON number literal (which must end
the literal): empty, or `e`/`E`, an optional sign, and one or more digits. -/
def checkExp : List Char → Bool
  | [] => true
  | c :: r =>
      if c = 'e' || c = 'E' then
        let r' := match r with
          | '+' :: t => t
          | '-' :: t => t
          | t => t
        let p := digitSpan r'
        !p.1.isEmpty && p.2.isEmpty
      else false

/-- Validate the fraction-then-exponent tail of a JSON number literal. -/
def checkFrac : List Char → Bool
  | '.' :: r =>
      let p := digitSpan r
      !p.1.isEmpty && checkExp p.2
  | l => checkExp l

/-- The full ECMA-404 number grammar: optional minus; `0` or a nonzero
digit followed by digits; optional fraction; optional exponent. -/
def isNumLit (l : List Char) : Bool :=
  let l1 := match l with
    | '-' :: r => r
    | r => r
  match l1 with
  | '0' :: r => checkFrac r
  | c :: r => isDigitChar c && checkFrac (digitSpan r).2
  | [] => false

/-- The fraction digits after a leading `'.'`, with the remainder (no
fraction: empty digits). -/
def fracSplit : List Char → List Char × List Char
  | '.' :: t => digitSpan t
  | r => ([], r)

/-- The signed value of an exponent part (`e`/`E`, optional sign,
digits); `0` when the literal has no exponent. -/
def expVal : List Char → Int
  | _ :: '+' :: t => (digitsVal (digitSpan t).1 : Int)
  | _ :: '-' :: t => -(digitsVal (digitSpan t).1 : Int)
  | _ :: t => (digitsVal (digitSpan t).1 : Int)
  | [] => 0

/-- The value of an unsigned (grammar-validated) number literal: integer
digits, optional fraction, optional exponent; the exact decimal value
with binary64 overflow applied by `mkJsNum`. -/
def numValuePos (neg : Bool) (l : List Char) : JsNum :=
  let ip := digitSpan l
  let fp := fracSplit ip.2
  mkJsNum neg (digitsVal (ip.1 ++ fp.1)) (expVal fp.2 - fp.1.length)

/-- `JSON.parse`'s conversion of a number literal to its value: strip the
optional minus sign, then read digits, fraction and exponent. -/
def numValue (l : List Char) : JsNum :=
  match l with
  | '-' :: t => numValuePos true t
  | t => numValuePos false t

/-- The numeric value of a hex digit, if it is one, by code point:
`0`–`9` are 0x30–0x39, `a`–`f` are 0x61–0x66, `A`–`F` are 0x41–0x46. -/
def hexVal (c : Char) : Option Nat :=
  let n := c.toNat
  if 0x30 ≤ n && n ≤ 0x39 then some (n - 0x30)
  else if 0x61 ≤ n && n ≤ 0x66 then some (n - 0x57)
  else if 0x41 ≤ n && n ≤ 0x46 then some (n - 0x37)
  else none

/-- Four hex digits as a code unit value. -/
def hex4 (a b c d : Char) : Option Nat :=
  match hexVal a, hexVal b, hexVal c, hexVal d with
  | some va, some vb, some vc, some vd => some (((va * 16 + vb) * 16 + vc) * 16 + vd)
  | _, _, _, _ => none

/-- Decode a single-character JSON escape (`\"`, `\\`, `\/`, `\b`, `\f`,
`\n`, `\r`, `\t`). -/
def unescapeChar : Char → Option Char
  | '"' => some '"'
  | '\\' => some '\\'
  | '/' => some '/'
  | 'b' => some (Char.ofNat 8)
  | 'f' => some (Char.ofNat 12)
  | 'n' => some '\n'
  | 'r' => some '\r'
  | 't' => some '\t'
  | _ => none

/-- Decode the code point introduced by a `\uXXXX` escape whose value is
`n`: when `n` is a high surrogate immediately followed in the input by a
low-surrogate `\uXXXX` escape, the pair combines into one code point and
both escapes are consumed; otherwise `n` stands alone (a lone surrogate,
unrepresentable in a Lean `String`, falls back to `Char.ofNat`'s
default).  The remainder is returned with its length bound, for
termination of `parseStringBody` never decodes past it. -/
def decodeU (n : Nat) (rest : List Char) : Char × List Char :=
  if 0xD800 ≤ n ∧ n ≤ 0xDBFF then
    match rest with
    | '\\' :: 'u' :: a :: b :: c :: d :: rest2 =>
        (match hex4 a b c d with
         | some m =>
           if 0xDC00 ≤ m ∧ m ≤ 0xDFFF then
             (Char.ofNat (0x10000 + (n - 0xD800) * 0x400 + (m - 0xDC00)), rest2)
           else (Char.ofNat n, '\\' :: 'u' :: a :: b :: c :: d :: rest2)
         | none => (Char.ofNat n, '\\' :: 'u' :: a :: b :: c :: d :: rest2))
    | r => (Char.ofNat n, r)
  else (Char.ofNat n, rest)

/-- Parse the body of a JSON string after the opening quote, accumulating
decoded characters in reverse: a quote ends the string; a backslash
introduces a `\uXXXX` escape (surrogate pairs combining via `decodeU`) or
a single-character escape; raw control characters below U+0020 are
rejected, as in `JSON.parse`.  Each step decodes one character and
consumes at least one input character, so the number of steps is bounded
by the input length; `fuel` is that bound, making the recursion
structural (callers pass the input length plus one, which cannot run
out). -/
def parseStringBody : Nat → List Char → List Char → Except String (String × List Char)
  | 0, _, _ => .error "Unterminated string in JSON"
  | _ + 1, _, [] => .error "Unterminated string in JSON"
  | fuel + 1, acc, c :: rest =>
    if c = '"' then .ok (String.mk acc.reverse, rest)
    else if c = '\\' then
      match rest with
      | [] => .error "Unterminated string in JSON"
      | e :: rest2 =>
        if e = 'u' then
          match rest2 with
          | a :: b :: c2 :: d :: rest3 =>
              (match hex4 a b c2 d with
               | none => .error "Bad Unicode escape in JSON"
               | some n =>
                 let p := decodeU n rest3
                 parseStringBody fuel (p.1 :: acc) p.2)
          | _ => .error "Bad Unicode escape in JSON"
        else
          match unescapeChar e with
          | some ch => parseStringBody fuel (ch :: acc) rest2
          | none => .error "Bad escape in JSON"
    else if c.toNat < 0x20 then .error "Bad control character in JSON string"
    else parseStringBody fuel (c :: acc) rest

mutual
/-- Parse one JSON value (leading whitespace allowed), returning it and
the unconsumed remainder.  `fuel` only bounds recursion depth for
totality; `parseJsonChars` supplies more than any input can use. -/
def parseVal : Nat → List Char → Except String (Json × List Char)
  | 0, _ => .error "JSON nesting too deep"
  | fuel + 1, cs =>
    match skipWs cs with
    | [] => .error "Unexpected end of JSON input"
    | c :: r =>
      if c = 'n' then
        match r with
        | 'u' :: 'l' :: 'l' :: r2 => .ok (.null, r2)
        | _ => .error "Unexpected token in JSON"
      else if c = 't' then
        match r with
        | 'r' :: 'u' :: 'e' :: r2 => .ok (.bool true, r2)
        | _ => .error "Unexpected token in JSON"
      else if c = 'f' then
        match r with
        | 'a' :: 'l' :: 's' :: 'e' :: r2 => .ok (.bool false, r2)
        | _ => .error "Unexpected token in JSON"
      else if c = '"' then
        match parseStringBody (r.length + 1) [] r with
        | .ok p => .ok (.str p.1, p.2)
        | .error e => .error e
      else if c = '[' then
        match skipWs r with
        | [] => .error "Unexpected end of JSON input"
        | c2 :: r2 =>
          if c2 = ']' then .ok (.arr [], r2)
          else
            match parseElems fuel (c2 :: r2) with
            | .ok p => .ok (.arr p.1, p.2)
            | .error e => .error e
      else if c = '{' then
        match skipWs r with
        | [] => .error "Unexpected end of JSON input"
        | c2 :: r2 =>
          if c2 = '}' then .ok (.obj [], r2)
          else
            match parseMembers fuel (c2 :: r2) with
            | .ok p => .ok (.obj (dedupMembers p.1), p.2)
            | .error e => .error e
      else if c = '-' || isDigitChar c then
        let p := takeNum (c :: r)
        if isNumLit p.1 then .ok (.num (numValue p.1), p.2)
        else .error "Malformed number in JSON"
      else .error "Unexpected token in JSON"
/-- One or more comma-separated array elements, up to the closing `]`. -/
def parseElems : Nat → List Char → Except String (List Json × List Char)
  | 0, _ => .error "JSON nesting too deep"
  | fuel + 1, cs =>
    match parseVal fuel cs with
    | .error e => .error e
    | .ok p =>
      match skipWs p.2 with
      | [] => .error "Expected comma or closing bracket in JSON array"
      | c :: r =>
        if c = ',' then
          match parseElems fuel r with
          | .ok q => .ok (p.1 :: q.1, q.2)
          | .error e => .error e
        else if c = ']' then .ok ([p.1], r)
        else .error "Expected comma or closing bracket in JSON array"
/-- One or more comma-separated object members, up to the closing brace;
the members are returned in source order (deduplication happens at the
`.obj` constructor in `parseVal`). -/
def parseMembers : Nat → List Char → Except String (List (String × Json) × List Char)
  | 0, _ => .error "JSON nesting too deep"
  | fuel + 1, cs =>
    match skipWs cs with
    | [] => .error "Expected string key in JSON object"
    | c :: r =>
      if c = '"' then
        match parseStringBody (r.length + 1) [] r with
        | .error e => .error e
        | .ok kp =>
          match skipWs kp.2 with
          | [] => .error "Expected colon in JSON object"
          | c2 :: r2 =>
            if c2 = ':' then
              match parseVal fuel r2 with
              | .error e => .error e
              | .ok vp =>
                match skipWs vp.2 with
                | [] => .error "Expected comma or closing brace in JSON object"
                | c3 :: r3 =>
                  if c3 = ',' then
                    match parseMembers fuel r3 with
                    | .ok q => .ok ((kp.1, vp.1) :: q.1, q.2)
                    | .error e => .error e
                  else if c3 = '}' then .ok ([(kp.1, vp.1)], r3)
                  else .error "Expected comma or closing brace in JSON object"
            else .error "Expected colon in JSON object"
      else .error "Expected string key in JSON object"
end

/-- `JSON.parse` on a character list: one value, then only whitespace may
remain. -/
def parseJsonChars (cs : List Char) : Except String Json :=
  match parseVal (cs.length + 1) cs with
  | .error e => .error e
  | .ok p =>
    match skipWs p.2 with
    | [] => .ok p.1
    | _ => .error "Unexpected characters after JSON data"

/-- The embedded `JSON.parse`. -/
def parseJson (s : String) : Except String Json := parseJsonChars s.data

/-!
### The JSON serializer (`JSON.stringify(value, null, spaces)`)

`gap` is the indentation unit (empty for compact output, two spaces for
pretty output); `ind` is the accumulated indentation of the enclosing
value.  With a non-empty gap, a non-empty array or object opens with a
newline and deeper indentation before each item and closes with a newline
and the enclosing indentation, and a member colon is followed by one
space — exactly ECMAScript's `SerializeJSONObject`/`SerializeJSONArray`.
-/

/-- The separator placed before each item of a non-empty array or object:
nothing in compact mode, newline plus the given indentation otherwise. -/
def nlIndent (gap ind : List Char) : List Char :=
  if gap.isEmpty then [] else '\n' :: ind

/-- The space after a member colon in pretty mode. -/
def colonPad (gap : List Char) : List Char :=
  if gap.isEmpty then [] else [' ']

/-- The lowercase hex digit for `n % 16`. -/
def hexDigit (n : Nat) : Char :=
  if n < 10 then Char.ofNat ('0'.toNat + n) else Char.ofNat ('a'.toNat + (n - 10))

/-- `QuoteJSONString` on one character: escape the quote, the backslash,
and control characters (named escapes for backspace, tab, line feed, form
feed, carriage return; `\u00XX` for the rest below U+0020); everything
else is emitted literally. -/
def escapeChar (c : Char) : List Char :=
  if c = '"' then ['\\', '"']
  else if c = '\\' then ['\\', '\\']
  else if c.toNat = 8 then ['\\', 'b']
  else if c.toNat = 9 then ['\\', 't']
  else if c.toNat = 10 then ['\\', 'n']
  else if c.toNat = 12 then ['\\', 'f']
  else if c.toNat = 13 then ['\\', 'r']
  else if c.toNat < 0x20 then
    ['\\', 'u', '0', '0', hexDigit (c.toNat / 16), hexDigit (c.toNat % 16)]
  else [c]

/-- A JSON string literal: quote, escaped characters, quote. -/
def quoteChars (cs : List Char) : List Char :=
  '"' :: (cs.flatMap escapeChar ++ ['"'])

mutual
/-- Serialize one value (see the section comment for `gap`/`ind`). -/
def serL (gap ind : List Char) : Json → List Char
  | .num v => printNum v
  | .null => ['n', 'u', 'l', 'l']
  | .bool b => if b then ['t', 'r', 'u', 'e'] else ['f', 'a', 'l', 's', 'e']
  | .str s => quoteChars s.data
  | .arr [] => ['[', ']']
  | .arr (e :: es) =>
      '[' :: (nlIndent gap (ind ++ gap) ++ serL gap (ind ++ gap) e
        ++ serArrTail gap (ind ++ gap) es ++ nlIndent gap ind ++ [']'])
  | .obj [] => ['{', '}']
  | .obj ((k, v) :: ms) =>
      '{' :: (nlIndent gap (ind ++ gap) ++ quoteChars k.data
        ++ ':' :: (colonPad gap ++ serL gap (ind ++ gap) v)
        ++ serObjTail gap (ind ++ gap) ms ++ nlIndent gap ind ++ ['}'])
/-- The remaining array elements, each preceded by a comma and the item
separator. -/
def serArrTail (gap ind : List Char) : List Json → List Char
  | [] => []
  | e :: es => ',' :: (nlIndent gap ind ++ serL gap ind e ++ serArrTail gap ind es)
/-- The remaining object members, each preceded by a comma and the item
separator. -/
def serObjTail (gap ind : List Char) : List (String × Json) → List Char
  | [] => []
  | (k, v) :: ms =>
      ',' :: (nlIndent gap ind ++ quoteChars k.data
        ++ ':' :: (colonPad gap ++ serL gap ind v) ++ serObjTail gap ind ms)
end

/-- `JSON.stringify(v, null, spaces)`: the gap is `min spaces 10` space
characters (the source passes `0` for `--compact` and `2` otherwise). -/
def jsonStringify (v : Json) (spaces : Nat) : String :=
  String.mk (serL (List.replicate (min spaces 10) ' ') [] v)

/-!
### Well-formed values

`wfJson` characterizes exactly the values `parseJson` can produce: every
number literal satisfies the grammar, and every object's keys are
distinct (JS property assignment cannot produce a duplicate).  The
serializer round-trips on such values.
-/

mutual
/-- The parser's invariant on produced values. -/
def wfJson : Json → Bool
  | .null => true
  | .bool _ => true
  | .num v => wfNum v
  | .str _ => true
  | .arr es => wfArr es
  | .obj ms => noDupKeys ms && wfObj ms
def wfArr : List Json → Bool
  | [] => true
  | e :: es => wfJson e && wfArr es
def wfObj : List (String × Json) → Bool
  | [] => true
  | (_, v) :: ms => wfJson v && wfObj ms
end

mutual
/-- `JSON.stringify` serializes a non-finite number as `null`; the value
a serialization parses back to is therefore the original with every
infinity replaced by `null`. -/
def infToNull : Json → Json
  | .num (.inf _) => .null
  | .num v => .num v
  | .null => .null
  | .bool b => .bool b
  | .str s => .str s
  | .arr es => .arr (infToNullArr es)
  | .obj ms => .obj (infToNullObj ms)
def infToNullArr : List Json → List Json
  | [] => []
  | e :: es => infToNull e :: infToNullArr es
def infToNullObj : List (String × Json) → List (String × Json)
  | [] => []
  | (k, v) :: ms => (k, infToNull v) :: infToNullObj ms
end

mutual
/-- No number of the value is an infinity (equivalently, `infToNull`
leaves it unchanged). -/
def jsonFinite : Json → Bool
  | .num (.inf _) => false
  | .num _ => true
  | .null => true
  | .bool _ => true
  | .str _ => true
  | .arr es => jsonFiniteArr es
  | .obj ms => jsonFiniteObj ms
def jsonFiniteArr : List Json → Bool
  | [] => true
  | e :: es => jsonFinite e && jsonFiniteArr es
def jsonFiniteObj : List (String × Json) → Bool
  | [] => true
  | (_, v) :: ms => jsonFinite v && jsonFiniteObj ms
end

/-- Erase JSON whitespace characters, for comparing serializations up to
whitespace. -/
def stripChars (l : List Char) : List Char := l.filter (fun c => !isWsChar c)

/-- Erase JSON whitespace characters from a string. -/
def stripWsStr (s : String) : String := String.mk (stripChars s.data)

/-!
### The pipeline stages around the JSON codec
-/

/-- The result of `preparePayload`: the re-serialized document and its
UTF-8 byte length (`Buffer.byteLength(jsonString, 'utf8')`). -/
structure Payload where
  jsonString : String
  bytes : Nat
deriving DecidableEq, Repr

/-- `preparePayload(rawJson, options)` from the source: parse, wrapping a
parse failure in an `Input is not valid JSON: …` error; re-serialize with
no extra whitespace when `options.compact` is truthy and two-space
indentation otherwise; report the UTF-8 byte length. -/
def preparePayload (rawJson : String) (options : Args) : Except String Payload :=
  match parseJson rawJson with
  | .error msg => .error ("Input is not valid JSON: " ++ msg)
  | .ok parsed =>
    let spaces := if truthy (getArg options "compact") then 0 else 2
    let jsonString := jsonStringify parsed spaces
    .ok { jsonString := jsonString, bytes := jsonString.utf8ByteSize }

/-- POSIX `path.basename`: drop trailing slashes, then take the final
path component. -/
def basename (p : String) : String :=
  let rev := p.data.reverse.dropWhile (fun c => c = '/')
  String.mk (rev.takeWhile (fun c => c != '/')).reverse

/-- `new Date().toISOString().replace(/[:.]/g, '-')` applied to the
ISO-8601 timestamp the environment supplies. -/
def sanitizeTimestamp (nowIso : String) : String :=
  String.mk (nowIso.data.map (fun c => if c = ':' || c = '.' then '-' else c))

/-- `path.basename` applied to a stored option value: Node throws a
`TypeError` unless the argument is a string — reachable here, since a
bare `--input` flag stores the boolean `true`. -/
def basenameV : ArgVal → Except String String
  | .str s => .ok (basename s)
  | .tru => .error
      "The \"path\" argument must be of type string. Received type boolean (true)"

/-- `inferDestination(options)` from the source: the truthy `destination`
option verbatim; else `path.basename` of a truthy `input` option (which
throws when that option is the boolean `true`); else
`document-<sanitized timestamp>.json`.  The clock read `new Date()` is
passed in as `nowIso`. -/
def inferDestination (options : Args) (nowIso : String) : Except String ArgVal :=
  if truthy (getArg options "destination") then
    .ok ((getArg options "destination").getD .tru)
  else if truthy (getArg options "input") then
    match basenameV ((getArg options "input").getD .tru) with
    | .ok b => .ok (.str b)
    | .error e => .error e
  else
    .ok (.str ("document-" ++ sanitizeTimestamp nowIso ++ ".json"))

/-!
### The effectful shell: environment, events, `getInput`, `main`

File contents, stdin, terminal detection and the upload outcome are an
explicit environment; the observable actions (console output, reads, the
storage `save` call) form an event trace.
-/

/-- The ambient process environment. -/
structure Env where
  /-- `fsPromises.readFile(path, 'utf8')`: the contents, or a rejected
  I/O error (e.g. a missing or unreadable file). -/
  readFile : String → Except String String
  /-- Everything standard input yields up to end-of-stream. -/
  stdinData : String
  /-- `process.stdin.isTTY`: standard input is an interactive terminal. -/
  stdinIsTTY : Bool
  /-- The outcome of the storage client's `save` call. -/
  saveResult : Except String Unit

/-- The options passed to the storage `save` call: `resumable: false`,
`contentType: 'application/json'`, and `metadata.cacheControl` exactly
when the `cache-control` option is truthy. -/
structure SaveOptions where
  resumable : Bool
  contentType : String
  metadataCacheControl : Option ArgVal
deriving DecidableEq, Repr

/-- The observable actions of one run. -/
inductive Event where
  | stdout (line : String)
  | stderr (line : String)
  | readFile (path : String)
  | readStdin
  | save (bucket : Option ArgVal) (dest : ArgVal) (contents : String) (opts : SaveOptions)
deriving DecidableEq, Repr

/-- Is an event the storage upload call? -/
def Event.isSave : Event → Bool
  | .save _ _ _ _ => true
  | _ => false

/-- `getInput(options)` from the source, with its read events: a truthy
`data` option is returned coerced to a string; else a truthy `input`
option names a file whose read result (contents or I/O error) is
propagated unchanged; else if `stdin` is truthy or standard input is not
a TTY, standard input is read to end-of-stream, an empty accumulation
being an error; otherwise no source is available.  (A boolean `input`
value — a bare `--input` flag — makes `fsPromises.readFile` reject with
Node's `ERR_INVALID_ARG_TYPE` error, whose message is modelled below.) -/
def getInput (options : Args) (env : Env) : List Event × Except String String :=
  if truthy (getArg options "data") then
    ([], .ok (jsString (getArg options "data")))
  else if truthy (getArg options "input") then
    match getArg options "input" with
    | some (.str p) => ([.readFile p], env.readFile p)
    | _ => ([], .error ("The \"path\" argument must be of type string or an instance "
        ++ "of Buffer or URL. Received type boolean (true)"))
  else if truthy (getArg options "stdin") || !env.stdinIsTTY then
    ([.readStdin],
     if env.stdinData.isEmpty then .error "No data received from stdin."
     else .ok env.stdinData)
  else
    ([], .error "No JSON input provided. Use --input, --data, or pipe data via stdin.")

/-- The usage text `printHelp` writes to standard output. -/
def helpText : String :=
  "\nUpload a JSON document to a Google Cloud Storage bucket.\n\n" ++
  "Usage: npm run upload-json -- --bucket <bucket-name> [options]\n\n" ++
  "Options:\n" ++
  "  --bucket, -b           GCS bucket name (required)\n" ++
  "  --destination, -d      Destination object path in the bucket. Defaults to the input file name\n" ++
  "                         or document-<timestamp>.json when reading from stdin.\n" ++
  "  --input, -i            Path to a JSON file to upload.\n" ++
  "  --stdin                Read JSON from standard input (also implied when data is piped).\n" ++
  "  --data                 Inline JSON string to upload.\n" ++
  "  --project, -p          GCP project id (optional).\n" ++
  "  --credentials          Path to a service account key file (optional).\n" ++
  "  --cache-control        Cache-Control metadata to apply to the uploaded object.\n" ++
  "  --compact              Upload compact JSON instead of pretty-printing with two spaces.\n" ++
  "  --dry-run              Validate input and report the upload target without performing it.\n" ++
  "  --help, -h             Show this message.\n"

/-- The `saveOptions` object `main` builds just before uploading. -/
def mkSaveOptions (args : Args) : SaveOptions :=
  { resumable := false
    contentType := "application/json"
    metadataCacheControl :=
      if truthy (getArg args "cacheControl") then getArg args "cacheControl" else none }

/-- The dry-run summary line. -/
def dryRunLine (args : Args) (payload : Payload) (destination : ArgVal) : String :=
  "[dry-run] Valid JSON (" ++ toString payload.bytes ++ " bytes). Would upload to gs://"
    ++ jsString (getArg args "bucket") ++ "/" ++ coerceToString destination

/-- The success confirmation line. -/
def uploadedLine (args : Args) (payload : Payload) (destination : ArgVal) : String :=
  "Uploaded " ++ toString payload.bytes ++ " bytes to gs://"
    ++ jsString (getArg args "bucket") ++ "/" ++ coerceToString destination

/-- `main` plus the top-level `.catch` handler: parse arguments; print
usage and stop on `--help`; print usage and fail on a missing bucket;
resolve input, prepare the payload, resolve the destination; print a
summary and stop on `--dry-run`; otherwise invoke the storage save and
print a confirmation.  Any error's message goes to standard error with
exit code 1 (`Storage` construction performs no observable action and
validates nothing eagerly). -/
def mainRun (argv : List String) (env : Env) (nowIso : String) : List Event × Nat :=
  let args := parseArgs argv
  if truthy (getArg args "help") then ([.stdout helpText], 0)
  else if !truthy (getArg args "bucket") then
    ([.stdout helpText, .stderr "Missing required --bucket option."], 1)
  else
    let inp := getInput args env
    match inp.2 with
    | .error msg => (inp.1 ++ [.stderr msg], 1)
    | .ok rawJson =>
      match preparePayload rawJson args with
      | .error msg => (inp.1 ++ [.stderr msg], 1)
      | .ok payload =>
        match inferDestination args nowIso with
        | .error msg => (inp.1 ++ [.stderr msg], 1)
        | .ok destination =>
          if truthy (getArg args "dryRun") then
            (inp.1 ++ [.stdout (dryRunLine args payload destination)], 0)
          else
            let saveEv := Event.save (getArg args "bucket") destination
              payload.jsonString (mkSaveOptions args)
            match env.saveResult with
            | .error msg => (inp.1 ++ [saveEv, .stderr msg], 1)
            | .ok _ =>
              (inp.1 ++ [saveEv, .stdout (uploadedLine args payload destination)], 0)

/-- A list of JSON whitespace characters only (the shape of every
indentation fragment the serializer emits). -/
def wsOnly (l : List Char) : Prop := ∀ c ∈ l, isWsChar c = true

/-- A remainder that cannot extend a number token: empty, or headed by a
character outside the number alphabet.  Every JSON delimiter (`,`, `]`,
`}`, newline, end of input) qualifies. -/
def numDelim (l : List Char) : Bool :=
  match l with
  | [] => true
  | c :: _ => !isNumChar c

/-- A concrete environment for witnesses and counterexamples: an
interactive terminal, no stdin data, a one-file file system, uploads
succeed. -/
def sampleEnv : Env :=
  { readFile := fun p => if p = "foo.json" then .ok "\x7b\"a\":1\x7d" else .error "ENOENT"
    stdinData := ""
    stdinIsTTY := true
    saveResult := .ok () }

/-!
## Theorems

First the supporting lemmas, then one theorem per claim (with a witness
or counterexample where called for).
-/

set_option maxRecDepth 8000

theorem normalizeKey_mem_canonical {s k : String} (h : normalizeKey s = some k) :
    k ∈ canonicalKeys := by
  unfold normalizeKey at h
  split at h <;> simp_all [canonicalKeys]

theorem mem_setKey {args : Args} {k : String} {v : ArgVal} {kv : String × ArgVal}
    (h : kv ∈ setKey args k v) : kv ∈ args ∨ kv = (k, v) := by
  induction args with
  | nil => simp [setKey] at h; right; exact h
  | cons hd tl ih =>
      unfold setKey at h
      split at h
      · rcases List.mem_cons.mp h with h | h
        · right; exact h
        · left; exact List.mem_cons_of_mem _ h
      · rcases List.mem_cons.mp h with h | h
        · left; exact h ▸ List.mem_cons_self _ _
        · rcases ih h with h | h
          · left; exact List.mem_cons_of_mem _ h
          · right; exact h

theorem parseArgsAux_mem : ∀ (fuel : Nat) (args : Args) (l : List String),
    ∀ kv ∈ parseArgsAux fuel args l, kv ∈ args ∨ kv.1 ∈ canonicalKeys := by
  intro fuel
  induction fuel with
  | zero => intro args l kv h; left; simpa [parseArgsAux] using h
  | succ f ih =>
    intro args l kv h
    match l with
    | [] => left; simpa [parseArgsAux] using h
    | tok :: rest =>
      rw [parseArgsAux] at h
      simp only [] at h
      repeat' split at h
      all_goals first
        | exact ih _ _ _ h
        | (rcases ih _ _ _ h with hmem | hc
           · rcases mem_setKey hmem with hm | hkv
             · exact Or.inl hm
             · subst hkv; exact Or.inr (normalizeKey_mem_canonical (by assumption))
           · exact Or.inr hc)
        | (rcases mem_setKey h with hm | hkv
           · exact Or.inl hm
           · subst hkv; exact Or.inr (normalizeKey_mem_canonical (by assumption)))

/-- C10: the argument parser is total — it is a function returning a
mapping on every token list (no failure case exists) — and every key of
the mapping it returns is one of the eleven canonical option names the
normalizer produces, each value being a string or boolean `true`. -/
theorem claim10_parseArgs_total_canonical (argv : List String) (kv : String × ArgVal)
    (hmem : kv ∈ parseArgs argv) :
    kv.1 ∈ canonicalKeys ∧ ((∃ s, kv.2 = ArgVal.str s) ∨ kv.2 = ArgVal.tru) := by
  constructor
  · rcases parseArgsAux_mem _ _ _ _ hmem with h | h
    · simp at h
    · exact h
  · match hv : kv.2 with
    | .str s => exact Or.inl ⟨s, rfl⟩
    | .tru => exact Or.inr rfl

theorem claim10_witness :
    ("bucket", ArgVal.str "a").1 ∈ canonicalKeys ∧
    ((∃ s, ("bucket", ArgVal.str "a").2 = ArgVal.str s) ∨
      ("bucket", ArgVal.str "a").2 = ArgVal.tru) :=
  claim10_parseArgs_total_canonical ["--bucket", "a"] _ (by decide)

/-- C6: in the argument parser, a recognized key with no inline `=value`
takes the next token as its value unless that token is absent or starts
with `-` (then the value is boolean `true`); a repeated key's last
occurrence wins (`--bucket a --bucket b` yields `bucket = b`); and a
token whose key does not normalize is silently dropped, no error being
possible (the parser is a total function). -/
theorem claim6_parseArgs_steps :
    (∀ (fuel : Nat) (args : Args) (tok next : String) (rest : List String)
       (body : List Char) (key : String),
       tok.data = '-' :: '-' :: body →
       (splitEq body).2 = none →
       normalizeKey (String.mk ((splitEq body).1.dropWhile (fun c => c = '-'))) = some key →
       startsDash next = false →
       parseArgsAux (fuel + 1) args (tok :: next :: rest)
         = parseArgsAux fuel (setKey args key (.str next)) rest) ∧
    (∀ (fuel : Nat) (args : Args) (tok next : String) (rest : List String)
       (body : List Char) (key : String),
       tok.data = '-' :: '-' :: body →
       (splitEq body).2 = none →
       normalizeKey (String.mk ((splitEq body).1.dropWhile (fun c => c = '-'))) = some key →
       startsDash next = true →
       parseArgsAux (fuel + 1) args (tok :: next :: rest)
         = parseArgsAux fuel (setKey args key .tru) (next :: rest)) ∧
    (∀ (fuel : Nat) (args : Args) (tok : String) (body : List Char) (key : String),
       tok.data = '-' :: '-' :: body →
       (splitEq body).2 = none →
       normalizeKey (String.mk ((splitEq body).1.dropWhile (fun c => c = '-'))) = some key →
       parseArgsAux (fuel + 1) args [tok] = setKey args key .tru) ∧
    (∀ (fuel : Nat) (args : Args) (tok : String) (rest : List String) (body : List Char),
       tok.data = '-' :: '-' :: body →
       normalizeKey (String.mk ((splitEq body).1.dropWhile (fun c => c = '-'))) = none →
       parseArgsAux (fuel + 1) args (tok :: rest) = parseArgsAux fuel args rest) ∧
    getArg (parseArgs ["--bucket", "a", "--bucket", "b"]) "bucket"
      = some (ArgVal.str "b") := by
  refine ⟨?_, ?_, ?_, ?_, by decide⟩
  · intro fuel args tok next rest body key htok hsplit hnorm hdash
    rw [parseArgsAux, htok]
    simp [hsplit, hnorm, hdash]
  · intro fuel args tok next rest body key htok hsplit hnorm hdash
    rw [parseArgsAux, htok]
    simp [hsplit, hnorm, hdash]
  · intro fuel args tok body key htok hsplit hnorm
    rw [parseArgsAux, htok]
    simp [hsplit, hnorm]
  · intro fuel args tok rest body htok hnorm
    rw [parseArgsAux, htok]
    simp [hnorm]

theorem claim6_witness :
    ("--bucket".data = '-' :: '-' :: "bucket".data ∧
     (splitEq "bucket".data).2 = none ∧
     normalizeKey (String.mk (((splitEq "bucket".data).1).dropWhile (fun c => c = '-')))
       = some "bucket" ∧
     startsDash "a" = false) ∧
    parseArgsAux 2 [] ["--bucket", "a"] = parseArgsAux 1 (setKey [] "bucket" (.str "a")) [] :=
  ⟨⟨by decide, by decide, by decide, by decide⟩,
   claim6_parseArgs_steps.1 1 [] "--bucket" "a" [] "bucket".data "bucket"
     (by decide) (by decide) (by decide) (by decide)⟩

theorem empty_isEmpty_eq : "".isEmpty = true := rfl

theorem truthy_none_eq : truthy none = false := rfl

/-- C9: option presence is tested by truthiness, so an empty-string value
behaves exactly as an absent key: with `--data=` input resolution falls
through past the data source, with `--destination=` destination
resolution falls through past the explicit destination, and with
`--cache-control=` no cacheControl metadata is attached; and `--data=`
indeed parses to an empty-string value. -/
theorem claim9_empty_string_is_absent :
    (∀ (opts : Args) (env : Env), getArg opts "data" = none →
       getInput (("data", ArgVal.str "") :: opts) env = getInput opts env) ∧
    (∀ (opts : Args) (nowIso : String), getArg opts "destination" = none →
       inferDestination (("destination", ArgVal.str "") :: opts) nowIso
         = inferDestination opts nowIso) ∧
    (∀ (opts : Args), getArg opts "cacheControl" = none →
       mkSaveOptions (("cacheControl", ArgVal.str "") :: opts) = mkSaveOptions opts) ∧
    parseArgs ["--data="] = [("data", ArgVal.str "")] := by
  refine ⟨?_, ?_, ?_, by decide⟩
  · intro opts env h
    simp [getInput, getArg, h, truthy, empty_isEmpty_eq]
  · intro opts nowIso h
    simp [inferDestination, getArg, h, truthy, empty_isEmpty_eq]
  · intro opts h
    simp [mkSaveOptions, getArg, h, truthy, empty_isEmpty_eq]

theorem claim9_witness :
    (getArg ([] : Args) "data" = none ∧
      getInput [("data", ArgVal.str "")] sampleEnv = getInput [] sampleEnv) ∧
    (getArg ([] : Args) "destination" = none ∧
      inferDestination [("destination", ArgVal.str "")] "T" = inferDestination [] "T") ∧
    (getArg ([] : Args) "cacheControl" = none ∧
      mkSaveOptions [("cacheControl", ArgVal.str "")] = mkSaveOptions []) :=
  ⟨⟨rfl, claim9_empty_string_is_absent.1 [] sampleEnv rfl⟩,
   ⟨rfl, claim9_empty_string_is_absent.2.1 [] "T" rfl⟩,
   ⟨rfl, claim9_empty_string_is_absent.2.2.1 [] rfl⟩⟩

/-- C1 as stated is false: with `data` present but bound to the empty
string (` --data= `), resolution does not return that value coerced to
text (the empty string) — truthiness sends it past every source to the
"no input" error. -/
theorem claim1_counterexample :
    getArg [("data", ArgVal.str "")] "data" = some (ArgVal.str "") ∧
    coerceToString (ArgVal.str "") = "" ∧
    (getInput [("data", ArgVal.str "")] sampleEnv).2
      = .error "No JSON input provided. Use --input, --data, or pipe data via stdin." ∧
    (getInput [("data", ArgVal.str "")] sampleEnv).2 ≠ .ok "" := by
  have h3 : (getInput [("data", ArgVal.str "")] sampleEnv).2
      = .error "No JSON input provided. Use --input, --data, or pipe data via stdin." := rfl
  refine ⟨rfl, rfl, h3, ?_⟩
  rw [h3]
  exact fun hcontra => Except.noConfusion hcontra

/-- C1 (amended: "present" means present with a truthy value, i.e. not
the empty string): input resolution tries the data option, then the
input file, then stdin, in that order: a truthy data value is returned
coerced to text as-is; otherwise a truthy input string is read as a file,
its I/O result (contents or error) propagated unchanged; otherwise, with
the stdin flag truthy or stdin not a TTY, standard input is read to
end-of-stream; and `--data '{"a":1}'` alone resolves to exactly that
string. -/
theorem claim1_input_precedence :
    (∀ (opts : Args) (env : Env) (v : ArgVal),
       getArg opts "data" = some v → truthy (some v) = true →
       getInput opts env = ([], .ok (coerceToString v))) ∧
    (∀ (opts : Args) (env : Env) (p : String),
       truthy (getArg opts "data") = false →
       getArg opts "input" = some (ArgVal.str p) → truthy (some (ArgVal.str p)) = true →
       getInput opts env = ([.readFile p], env.readFile p)) ∧
    (∀ (opts : Args) (env : Env),
       truthy (getArg opts "data") = false →
       truthy (getArg opts "input") = false →
       (truthy (getArg opts "stdin") = true ∨ env.stdinIsTTY = false) →
       env.stdinData.isEmpty = false →
       getInput opts env = ([.readStdin], .ok env.stdinData)) ∧
    (∀ env : Env, getInput (parseArgs ["--data", "\x7b\"a\":1\x7d"]) env
       = ([], .ok "\x7b\"a\":1\x7d")) := by
  refine ⟨?_, ?_, ?_, ?_⟩
  · intro opts env v hv htr
    simp [getInput, hv, htr, jsString]
  · intro opts env p hdata hinp htr
    simp [getInput, hdata, hinp, htr]
  · intro opts env hdata hinp hstdin hne
    rcases hstdin with hs | hs <;> simp [getInput, hdata, hinp, hs, hne]
  · intro env
    rfl

theorem claim1_witness :
    (getArg [("data", ArgVal.str "x")] "data" = some (ArgVal.str "x") ∧
      truthy (some (ArgVal.str "x")) = true ∧
      getInput [("data", ArgVal.str "x")] sampleEnv
        = ([], .ok (coerceToString (ArgVal.str "x")))) ∧
    getInput (parseArgs ["--data", "\x7b\"a\":1\x7d"]) sampleEnv
      = ([], .ok "\x7b\"a\":1\x7d") :=
  ⟨⟨rfl, rfl, claim1_input_precedence.1 [("data", ArgVal.str "x")] sampleEnv _ rfl rfl⟩,
   claim1_input_precedence.2.2.2 sampleEnv⟩

/-- C4 as stated is false: with `destination` present but bound to the
empty string (`--destination=`), the explicit destination is not
returned verbatim — truthiness sends resolution to the input base name. -/
theorem claim4_counterexample :
    getArg [("destination", ArgVal.str ""), ("input", ArgVal.str "dir/foo.json")]
        "destination" = some (ArgVal.str "") ∧
    inferDestination [("destination", ArgVal.str ""), ("input", ArgVal.str "dir/foo.json")]
        "T" = .ok (ArgVal.str "foo.json") ∧
    inferDestination [("destination", ArgVal.str ""), ("input", ArgVal.str "dir/foo.json")]
        "T" ≠ .ok (ArgVal.str "") := by
  refine ⟨rfl, rfl, ?_⟩
  intro h
  rw [show inferDestination
      [("destination", ArgVal.str ""), ("input", ArgVal.str "dir/foo.json")] "T"
      = Except.ok (ArgVal.str "foo.json") from rfl] at h
  exact absurd (Except.ok.inj h) (by decide)

/-- C4 (amended: "present" means present with a truthy value): the truthy
explicit destination option is returned verbatim; otherwise a truthy
input file path resolves to its base name with directory components
stripped; otherwise the generated name is
`document-<timestamp with ':' and '.' mapped to '-'>.json`. -/
theorem claim4_destination_precedence :
    (∀ (opts : Args) (nowIso : String) (v : ArgVal),
       getArg opts "destination" = some v → truthy (some v) = true →
       inferDestination opts nowIso = .ok v) ∧
    (∀ (opts : Args) (nowIso : String) (p : String),
       truthy (getArg opts "destination") = false →
       getArg opts "input" = some (ArgVal.str p) → truthy (some (ArgVal.str p)) = true →
       inferDestination opts nowIso = .ok (ArgVal.str (basename p))) ∧
    (∀ (opts : Args) (nowIso : String),
       truthy (getArg opts "destination") = false →
       truthy (getArg opts "input") = false →
       inferDestination opts nowIso
         = .ok (ArgVal.str ("document-" ++ sanitizeTimestamp nowIso ++ ".json"))) ∧
    (∀ nowIso : String, inferDestination (parseArgs ["--input", "dir/foo.json"]) nowIso
       = .ok (ArgVal.str "foo.json")) := by
  refine ⟨?_, ?_, ?_, ?_⟩
  · intro opts nowIso v hv htr
    simp [inferDestination, hv, htr]
  · intro opts nowIso p hdest hinp htr
    simp [inferDestination, hdest, hinp, htr, basenameV]
  · intro opts nowIso hdest hinp
    simp [inferDestination, hdest, hinp]
  · intro nowIso
    rfl

theorem claim4_witness :
    (getArg [("destination", ArgVal.str "d.json")] "destination"
        = some (ArgVal.str "d.json") ∧
      truthy (some (ArgVal.str "d.json")) = true ∧
      inferDestination [("destination", ArgVal.str "d.json")] "T"
        = .ok (ArgVal.str "d.json")) ∧
    inferDestination (parseArgs ["--input", "dir/foo.json"]) "T"
      = .ok (ArgVal.str "foo.json") :=
  ⟨⟨rfl, rfl, claim4_destination_precedence.1 [("destination", ArgVal.str "d.json")] "T" _
      rfl rfl⟩,
   claim4_destination_precedence.2.2.2 "T"⟩

/-- C7: when standard input is the selected source and the accumulated
text is empty, resolution fails with the empty-stdin error; and when
data, input and stdin are all absent and standard input is an
interactive terminal, it fails with the "no input provided" error naming
the three accepted sources. -/
theorem claim7_input_errors :
    (∀ (opts : Args) (env : Env),
       truthy (getArg opts "data") = false →
       truthy (getArg opts "input") = false →
       (truthy (getArg opts "stdin") = true ∨ env.stdinIsTTY = false) →
       env.stdinData.isEmpty = true →
       (getInput opts env).2 = .error "No data received from stdin.") ∧
    (∀ (opts : Args) (env : Env),
       getArg opts "data" = none → getArg opts "input" = none →
       getArg opts "stdin" = none → env.stdinIsTTY = true →
       (getInput opts env).2
         = .error "No JSON input provided. Use --input, --data, or pipe data via stdin.") := by
  constructor
  · intro opts env hdata hinp hstdin hempty
    rcases hstdin with hs | hs <;> simp [getInput, hdata, hinp, hs, hempty]
  · intro opts env hdata hinp hstdin htty
    simp [getInput, hdata, hinp, hstdin, htty, truthy]

theorem claim7_witness :
    ((getInput [] { sampleEnv with stdinIsTTY := false }).2
       = .error "No data received from stdin.") ∧
    ((getInput [] sampleEnv).2
       = .error "No JSON input provided. Use --input, --data, or pipe data via stdin.") :=
  ⟨claim7_input_errors.1 [] { sampleEnv with stdinIsTTY := false }
     rfl rfl (Or.inr rfl) rfl,
   claim7_input_errors.2 [] sampleEnv rfl rfl rfl rfl⟩

/-- C8: with the help flag not set and the bucket option absent, the
program prints the usage text and fails with the missing-bucket error —
exit code 1, the message on the error stream, and no input-reading or
upload event in the trace; with the help flag set it prints the usage
text and exits 0 with no further action. -/
theorem claim8_help_and_bucket (argv : List String) (env : Env) (nowIso : String) :
    (truthy (getArg (parseArgs argv) "help") = false →
      getArg (parseArgs argv) "bucket" = none →
      mainRun argv env nowIso
        = ([.stdout helpText, .stderr "Missing required --bucket option."], 1)) ∧
    (truthy (getArg (parseArgs argv) "help") = true →
      mainRun argv env nowIso = ([.stdout helpText], 0)) := by
  constructor
  · intro hhelp hbucket
    simp [mainRun, hhelp, hbucket, truthy_none_eq]
  · intro hhelp
    simp [mainRun, hhelp]

theorem claim8_witness :
    (truthy (getArg (parseArgs ["--data", "1"]) "help") = false ∧
      getArg (parseArgs ["--data", "1"]) "bucket" = none ∧
      mainRun ["--data", "1"] sampleEnv "T"
        = ([.stdout helpText, .stderr "Missing required --bucket option."], 1)) ∧
    mainRun ["--help"] sampleEnv "T" = ([.stdout helpText], 0) :=
  ⟨⟨by decide, by decide,
    (claim8_help_and_bucket ["--data", "1"] sampleEnv "T").1 (by decide) (by decide)⟩,
   (claim8_help_and_bucket ["--help"] sampleEnv "T").2 (by decide)⟩

theorem getInput_no_save (opts : Args) (env : Env) :
    ∀ e ∈ (getInput opts env).1, e.isSave = false := by
  intro e he
  unfold getInput at he
  repeat' split at he
  all_goals simp_all [Event.isSave]

/-- C5 as stated is false: with `--bucket b --data 1 --dry-run --input`
the dry-run flag is set and no upload is attempted, but no summary line
is printed either — the bare `--input` flag stores the boolean `true`,
`path.basename(true)` throws a TypeError before the dry-run check, and
the run prints only that error to standard error and exits 1. -/
theorem claim5_counterexample :
    truthy (getArg (parseArgs ["--bucket", "b", "--data", "1", "--dry-run", "--input"])
      "dryRun") = true ∧
    mainRun ["--bucket", "b", "--data", "1", "--dry-run", "--input"] sampleEnv "T"
      = ([.stderr
          "The \"path\" argument must be of type string. Received type boolean (true)"],
         1) ∧
    (∀ e ∈ (mainRun ["--bucket", "b", "--data", "1", "--dry-run", "--input"]
        sampleEnv "T").1, e.isSave = false ∧ ∀ line, e ≠ .stdout line) := by
  refine ⟨by decide, by decide, ?_⟩
  intro e he
  rw [show mainRun ["--bucket", "b", "--data", "1", "--dry-run", "--input"] sampleEnv "T"
      = ([.stderr
          "The \"path\" argument must be of type string. Received type boolean (true)"],
         1) from by decide] at he
  rcases List.mem_singleton.mp he with rfl
  exact ⟨rfl, fun line h => Event.noConfusion h⟩

/-- C5 (amended): whenever the dryRun flag is set, no storage save event
ever appears in the run's trace; and on the path that reaches the
dry-run check (help unset, bucket truthy, input resolved, payload valid,
and destination resolution not thrown — it throws on a bare boolean
`--input` flag) the run ends with exactly the summary line — which
reports the payload byte count and the would-be target — and exit
code 0. -/
theorem claim5_dry_run_no_upload (argv : List String) (env : Env) (nowIso : String)
    (hdry : truthy (getArg (parseArgs argv) "dryRun") = true) :
    (∀ e ∈ (mainRun argv env nowIso).1, e.isSave = false) ∧
    (∀ (rawJson : String) (payload : Payload) (destination : ArgVal),
       truthy (getArg (parseArgs argv) "help") = false →
       truthy (getArg (parseArgs argv) "bucket") = true →
       (getInput (parseArgs argv) env).2 = .ok rawJson →
       preparePayload rawJson (parseArgs argv) = .ok payload →
       inferDestination (parseArgs argv) nowIso = .ok destination →
       mainRun argv env nowIso
         = ((getInput (parseArgs argv) env).1
             ++ [.stdout (dryRunLine (parseArgs argv) payload destination)], 0)) := by
  constructor
  · intro e he
    unfold mainRun at he
    simp only [] at he
    repeat' split at he
    all_goals
      first
      | (rcases List.mem_append.mp he with h1 | h1
         · exact getInput_no_save _ _ _ h1
         · simp only [List.mem_cons, List.mem_singleton, List.not_mem_nil, or_false] at h1
           first
           | ((rcases h1 with rfl | rfl) <;> rfl)
           | (subst h1; rfl)
           | simp_all)
      | (simp only [List.mem_cons, List.mem_singleton, List.not_mem_nil, or_false] at he
         first
         | ((rcases he with rfl | rfl) <;> rfl)
         | (subst he; rfl)
         | simp_all)
      | simp_all
  · intro rawJson payload destination hhelp hbucket hinp hpay hdest
    simp [mainRun, hhelp, hbucket, hinp, hpay, hdest, hdry]

theorem claim5_witness :
    truthy (getArg (parseArgs ["--bucket", "b", "--data", "1", "--dry-run"]) "dryRun")
      = true ∧
    mainRun ["--bucket", "b", "--data", "1", "--dry-run"] sampleEnv "T"
      = ((getInput (parseArgs ["--bucket", "b", "--data", "1", "--dry-run"]) sampleEnv).1
          ++ [.stdout (dryRunLine (parseArgs ["--bucket", "b", "--data", "1", "--dry-run"])
               { jsonString := "1", bytes := 1 }
               (ArgVal.str "document-T.json"))], 0) :=
  ⟨by decide,
   (claim5_dry_run_no_upload ["--bucket", "b", "--data", "1", "--dry-run"] sampleEnv "T"
       (by decide)).2 "1" { jsonString := "1", bytes := 1 } (ArgVal.str "document-T.json")
     (by decide) (by decide) rfl rfl rfl⟩

/-- C2: payload preparation fails exactly when JSON parsing of the raw
text fails; the failure message is the parser's message prefixed so that
it contains both "not valid JSON" and the parser's message verbatim; and
on success the result is the re-serialized string (compact or two-space
pretty per the `compact` flag) together with its UTF-8 byte length. -/
theorem claim2_prepare_payload (rawJson : String) (options : Args) :
    ((∃ e, preparePayload rawJson options = .error e) ↔
      (∃ e, parseJson rawJson = .error e)) ∧
    (∀ e, parseJson rawJson = .error e →
       preparePayload rawJson options
         = .error ("Input is " ++ "not valid JSON" ++ (": " ++ e))) ∧
    (∀ v, parseJson rawJson = .ok v →
       preparePayload rawJson options = .ok
         { jsonString := jsonStringify v (if truthy (getArg options "compact") then 0 else 2)
           bytes := (jsonStringify v
             (if truthy (getArg options "compact") then 0 else 2)).utf8ByteSize }) := by
  refine ⟨?_, ?_, ?_⟩
  · constructor
    · rintro ⟨e, he⟩
      cases hp : parseJson rawJson with
      | error e2 => exact ⟨e2, rfl⟩
      | ok v => rw [preparePayload, hp] at he; exact Except.noConfusion he
    · rintro ⟨e, he⟩
      exact ⟨"Input is not valid JSON: " ++ e, by rw [preparePayload, he]⟩
  · intro e he
    rw [preparePayload, he]
    rfl
  · intro v hv
    rw [preparePayload, hv]

theorem claim2_witness :
    parseJson "x" = .error "Unexpected token in JSON" ∧
    preparePayload "x" []
      = .error ("Input is " ++ "not valid JSON" ++ (": " ++ "Unexpected token in JSON")) :=
  ⟨rfl, (claim2_prepare_payload "x" []).2.1 "Unexpected token in JSON" rfl⟩

/-!
### Round-trip of the JSON codec: whitespace and token lemmas
-/

theorem wsOnly_nil : wsOnly [] := by
  intro c hc
  cases hc

theorem wsOnly_replicate (n : Nat) : wsOnly (List.replicate n ' ') := by
  intro c hc
  rw [List.eq_of_mem_replicate hc]
  rfl

theorem wsOnly_append {a b : List Char} (ha : wsOnly a) (hb : wsOnly b) :
    wsOnly (a ++ b) := by
  intro c hc
  rcases List.mem_append.mp hc with h | h
  exacts [ha c h, hb c h]

theorem skipWs_cons_not {c : Char} (r : List Char) (h : isWsChar c = false) :
    skipWs (c :: r) = c :: r := by
  simp [skipWs, h]

theorem skipWs_ws_append {w : List Char} (hw : wsOnly w) (r : List Char) :
    skipWs (w ++ r) = skipWs r := by
  induction w with
  | nil => rfl
  | cons c cs ih =>
      have hc := hw c (List.mem_cons_self _ _)
      rw [List.cons_append]
      simp only [skipWs, hc, if_true]
      exact ih (fun x hx => hw x (List.mem_cons_of_mem _ hx))

theorem wsOnly_nlIndent {ind : List Char} (gap : List Char) (hind : wsOnly ind) :
    wsOnly (nlIndent gap ind) := by
  unfold nlIndent
  split
  · exact wsOnly_nil
  · intro c hc
    rcases List.mem_cons.mp hc with rfl | h
    · rfl
    · exact hind c h

theorem wsOnly_colonPad (gap : List Char) : wsOnly (colonPad gap) := by
  unfold colonPad
  split
  · exact wsOnly_nil
  · intro c hc
    rcases List.mem_cons.mp hc with rfl | h
    · rfl
    · cases h

/-!
### Number-token lemmas
-/

theorem digitSpan_split : ∀ l : List Char,
    l = (digitSpan l).1 ++ (digitSpan l).2 ∧ ∀ c ∈ (digitSpan l).1, isDigitChar c = true := by
  intro l
  induction l with
  | nil => exact ⟨rfl, by intro c hc; cases hc⟩
  | cons c cs ih =>
      by_cases hc : isDigitChar c = true
      · constructor
        · conv_lhs => rw [ih.1]
          simp [digitSpan, hc]
        · intro x hx
          simp only [digitSpan, hc, if_true] at hx
          rcases List.mem_cons.mp hx with rfl | h
          · exact hc
          · exact ih.2 x h
      · rw [Bool.not_eq_true] at hc
        simp [digitSpan, hc]

theorem digitSpan_stop {l : List Char}
    (h : ∀ c t, l = c :: t → isDigitChar c = false) : digitSpan l = ([], l) := by
  cases l with
  | nil => rfl
  | cons c t => simp [digitSpan, h c t rfl]

theorem digitSpan_append {ds rest : List Char} (hds : ∀ c ∈ ds, isDigitChar c = true)
    (hrest : digitSpan rest = ([], rest)) : digitSpan (ds ++ rest) = (ds, rest) := by
  induction ds with
  | nil => simpa using hrest
  | cons c t ih =>
      have hc : isDigitChar c = true := hds c (List.mem_cons_self _ _)
      have ht := ih (fun x hx => hds x (List.mem_cons_of_mem _ hx))
      simp [digitSpan, hc, ht]

theorem takeNum_stop {l : List Char} (h : numDelim l = true) : takeNum l = ([], l) := by
  cases l with
  | nil => rfl
  | cons c t =>
      simp only [numDelim, Bool.not_eq_true'] at h
      simp [takeNum, h]

theorem takeNum_append {ds rest : List Char} (hds : ∀ c ∈ ds, isNumChar c = true)
    (hrest : numDelim rest = true) : takeNum (ds ++ rest) = (ds, rest) := by
  induction ds with
  | nil => simpa using takeNum_stop hrest
  | cons c t ih =>
      have hc : isNumChar c = true := hds c (List.mem_cons_self _ _)
      have ht := ih (fun x hx => hds x (List.mem_cons_of_mem _ hx))
      simp [takeNum, hc, ht]

theorem digit_isNumChar {c : Char} (h : isDigitChar c = true) : isNumChar c = true := by
  simp [isNumChar, h]

theorem checkExp_all : ∀ {l : List Char}, checkExp l = true →
    ∀ c ∈ l, isNumChar c = true := by
  have key : ∀ r2 : List Char, (!(digitSpan r2).1.isEmpty && (digitSpan r2).2.isEmpty) = true →
      ∀ x ∈ r2, isNumChar x = true := by
    intro r2 hr2 x hx
    rw [Bool.and_eq_true] at hr2
    obtain ⟨_, hemp⟩ := hr2
    rw [List.isEmpty_iff] at hemp
    have h2 := (digitSpan_split r2).1
    rw [hemp, List.append_nil] at h2
    rw [h2] at hx
    exact digit_isNumChar ((digitSpan_split r2).2 x hx)
  intro l h c hc
  rw [checkExp.eq_def] at h
  split at h
  · cases hc
  · rename_i e r
    split at h
    · rename_i he
      simp only [] at h
      rw [Bool.or_eq_true] at he
      rcases List.mem_cons.mp hc with rfl | hcr
      · rcases he with h1 | h1 <;> (rw [of_decide_eq_true h1]; decide)
      · split at h
        · rcases List.mem_cons.mp hcr with rfl | hct
          · decide
          · exact key _ h c hct
        · rcases List.mem_cons.mp hcr with rfl | hct
          · decide
          · exact key _ h c hct
        · exact key _ h c hcr
    · cases h

theorem checkFrac_all : ∀ {l : List Char}, checkFrac l = true →
    ∀ c ∈ l, isNumChar c = true := by
  intro l h c hc
  rw [checkFrac.eq_def] at h
  split at h
  · rename_i r
    simp only [] at h
    rw [Bool.and_eq_true] at h
    obtain ⟨_, hexp⟩ := h
    rcases List.mem_cons.mp hc with rfl | hcr
    · decide
    · have h2 := (digitSpan_split r).1
      rw [h2] at hcr
      rcases List.mem_append.mp hcr with hx | hx
      · exact digit_isNumChar ((digitSpan_split r).2 c hx)
      · exact checkExp_all hexp c hx
  · exact checkExp_all h c hc

theorem numBody_all : ∀ l1 : List Char,
    (match l1 with
     | '0' :: r => checkFrac r
     | c :: r => isDigitChar c && checkFrac (digitSpan r).2
     | [] => false) = true → ∀ c ∈ l1, isNumChar c = true := by
  intro l1 hb c hc
  split at hb
  · rcases List.mem_cons.mp hc with rfl | hcr
    · decide
    · exact checkFrac_all hb c hcr
  · rename_i c2 r hne
    rw [Bool.and_eq_true] at hb
    obtain ⟨hd, hf⟩ := hb
    rcases List.mem_cons.mp hc with rfl | hcr
    · exact digit_isNumChar hd
    · have h2 := (digitSpan_split r).1
      rw [h2] at hcr
      rcases List.mem_append.mp hcr with hx | hx
      · exact digit_isNumChar ((digitSpan_split r).2 c hx)
      · exact checkFrac_all hf c hx
  · cases hb

theorem stripSign_of_ne {c1 : Char} (t : List Char) (hs : c1 ≠ '-') :
    (match c1 :: t with
     | '-' :: r => r
     | r => r) = c1 :: t := by
  split
  · rename_i r heq
    injection heq with h1 _
    first
    | exact absurd h1 hs
    | exact absurd h1.symm hs
  · rfl

theorem isNumLit_all : ∀ {l : List Char}, isNumLit l = true →
    ∀ c ∈ l, isNumChar c = true := by
  intro l h c hc
  rcases l with _ | ⟨c1, t⟩
  · cases hc
  · by_cases hs : c1 = '-'
    · subst hs
      rcases List.mem_cons.mp hc with rfl | hct
      · decide
      · exact numBody_all t h c hct
    · rw [isNumLit.eq_def] at h
      simp only [] at h
      rw [stripSign_of_ne t hs] at h
      exact numBody_all (c1 :: t) h c hc

theorem isNumLit_head : ∀ {l : List Char}, isNumLit l = true →
    ∃ c t, l = c :: t ∧ (isDigitChar c = true ∨ c = '-') := by
  intro l h
  match l with
  | [] => exact absurd h (by decide)
  | c1 :: t =>
    refine ⟨c1, t, rfl, ?_⟩
    by_cases hs : c1 = '-'
    · exact Or.inr hs
    · left
      rw [isNumLit.eq_def] at h
      simp only [] at h
      rw [stripSign_of_ne t hs] at h
      split at h
      · rename_i r heq
        injection heq with h1 _
        rw [h1]
        decide
      · rename_i c2 r heq
        injection heq with h1 _
        rw [Bool.and_eq_true] at h
        rw [h1]
        exact h.1
      · cases h

/-!
### String-escape lemmas
-/

theorem strMk_data (s : String) : String.mk s.data = s := by
  cases s
  rfl

theorem hexVal_hexDigit {d : Nat} (h : d < 16) : hexVal (hexDigit d) = some d := by
  interval_cases d <;> decide

theorem decodeU_low {n : Nat} (h : n < 0xD800) (rest : List Char) :
    decodeU n rest = (Char.ofNat n, rest) := by
  unfold decodeU
  rw [if_neg (by omega : ¬(0xD800 ≤ n ∧ n ≤ 0xDBFF))]

theorem parseStringBody_escape (c : Char) (fuel : Nat) (acc rest : List Char) :
    parseStringBody (fuel + 1) acc (escapeChar c ++ rest)
      = parseStringBody fuel (c :: acc) rest := by
  unfold escapeChar
  split_ifs with h1 h2 h3 h4 h5 h6 h7 h8
  · subst h1; rfl
  · subst h2; rfl
  · have hc : c = Char.ofNat 8 := by rw [← h3, Char.ofNat_toNat]
    subst hc; rfl
  · have hc : c = Char.ofNat 9 := by rw [← h4, Char.ofNat_toNat]
    subst hc; rfl
  · have hc : c = Char.ofNat 10 := by rw [← h5, Char.ofNat_toNat]
    subst hc; rfl
  · have hc : c = Char.ofNat 12 := by rw [← h6, Char.ofNat_toNat]
    subst hc; rfl
  · have hc : c = Char.ofNat 13 := by rw [← h7, Char.ofNat_toNat]
    subst hc; rfl
  · have hdiv : c.toNat / 16 < 16 := by omega
    have hmod : c.toNat % 16 < 16 := by omega
    have h0 : hexVal '0' = some 0 := by decide
    have harith : c.toNat / 16 * 16 + c.toNat % 16 = c.toNat := by omega
    have hlow := decodeU_low (by omega : c.toNat < 0xD800) rest
    simp [parseStringBody, List.cons_append, hex4, hexVal_hexDigit hdiv,
      hexVal_hexDigit hmod, h0, harith, hlow, Char.ofNat_toNat]
  · simp [parseStringBody, List.cons_append, h1, h2, h8]

theorem parseStringBody_flat : ∀ (cs : List Char) (fuel : Nat) (acc rest : List Char),
    cs.length < fuel →
    parseStringBody fuel acc (cs.flatMap escapeChar ++ '"' :: rest)
      = .ok (String.mk (acc.reverse ++ cs), rest) := by
  intro cs
  induction cs with
  | nil =>
      intro fuel acc rest hf
      match fuel, hf with
      | f + 1, _ => simp [parseStringBody]
  | cons c cs ih =>
      intro fuel acc rest hf
      match fuel, hf with
      | f + 1, hf =>
        rw [List.flatMap_cons, List.append_assoc, parseStringBody_escape]
        rw [ih f (c :: acc) rest (by simp at hf; omega)]
        simp

theorem le_length_flatMap_escape (cs : List Char) :
    cs.length ≤ (cs.flatMap escapeChar).length := by
  induction cs with
  | nil => simp
  | cons c t ih =>
      rw [List.flatMap_cons]
      simp only [List.length_append, List.length_cons]
      have h1 : 1 ≤ (escapeChar c).length := by
        unfold escapeChar
        split_ifs <;> simp
      omega

/-!
### Character-class facts for parser dispatch
-/

theorem numStart_facts {c : Char} (h : isDigitChar c = true ∨ c = '-') :
    isWsChar c = false ∧ c ≠ 'n' ∧ c ≠ 't' ∧ c ≠ 'f' ∧ c ≠ '"' ∧ c ≠ '[' ∧ c ≠ '{' ∧
      c ≠ ']' ∧ c ≠ '}' ∧ (c = '-' || isDigitChar c) = true := by
  rcases h with h | rfl
  · refine ⟨?_, ?_, ?_, ?_, ?_, ?_, ?_, ?_, ?_, by simp [h]⟩
    · cases hws : isWsChar c
      · rfl
      · exfalso
        unfold isWsChar at hws
        simp only [Bool.or_eq_true, decide_eq_true_eq] at hws
        rcases hws with ((rfl | rfl) | rfl) | rfl <;> exact absurd h (by decide)
    all_goals (intro hcontra; rw [hcontra] at h; exact absurd h (by decide))
  · exact ⟨by decide, by decide, by decide, by decide, by decide, by decide, by decide,
      by decide, by decide, by decide⟩

/-!
### Number values: digits, canonical form, print/parse inverse
-/
theorem digitChar_toNat (d : Nat) : (digitChar d).toNat = 0x30 + d % 10 := by
  have h : d % 10 < 10 := Nat.mod_lt _ (by omega)
  unfold digitChar
  generalize hr : d % 10 = r
  rw [hr] at h
  interval_cases r <;> decide

theorem digitChar_digit (d : Nat) : isDigitChar (digitChar d) = true := by
  have h : d % 10 < 10 := Nat.mod_lt _ (by omega)
  unfold digitChar
  generalize hr : d % 10 = r
  rw [hr] at h
  interval_cases r <;> decide

theorem natDigitsAux_irrel : ∀ f1 f2 m, m < f1 → m < f2 →
    natDigitsAux f1 m = natDigitsAux f2 m := by
  intro f1
  induction f1 with
  | zero => intro f2 m h1 _; omega
  | succ f ih =>
      intro f2 m h1 h2
      cases f2 with
      | zero => omega
      | succ g =>
          by_cases hm : m < 10
          · simp [natDigitsAux, hm]
          · have hd : m / 10 < m := Nat.div_lt_self (by omega) (by omega)
            simp only [natDigitsAux, if_neg hm]
            rw [ih g (m / 10) (by omega) (by omega)]

theorem natDigits_lt {m : Nat} (h : m < 10) : natDigits m = [digitChar m] := by
  simp [natDigits, natDigitsAux, h]

theorem natDigits_ge {m : Nat} (h : 10 ≤ m) :
    natDigits m = natDigits (m / 10) ++ [digitChar (m % 10)] := by
  have hd : m / 10 < m := Nat.div_lt_self (by omega) (by omega)
  unfold natDigits
  conv_lhs => rw [natDigitsAux]
  rw [if_neg (by omega)]
  rw [natDigitsAux_irrel m (m / 10 + 1) (m / 10) (by omega) (by omega)]

theorem digitsVal_acc (l : List Char) (a : Nat) :
    l.foldl (fun x c => x * 10 + (c.toNat - 0x30)) a
      = a * 10 ^ l.length + digitsVal l := by
  induction l generalizing a with
  | nil => simp [digitsVal]
  | cons c t ih =>
      have h2 : digitsVal (c :: t) = (c.toNat - 0x30) * 10 ^ t.length + digitsVal t := by
        simp only [digitsVal, List.foldl_cons]
        rw [ih]
        simp only [digitsVal]
        ring
      simp only [List.foldl_cons]
      rw [ih, h2, List.length_cons, pow_succ]
      ring

theorem digitsVal_append (a b : List Char) :
    digitsVal (a ++ b) = digitsVal a * 10 ^ b.length + digitsVal b := by
  simp only [digitsVal, List.foldl_append]
  rw [digitsVal_acc]
  rfl

theorem digitsVal_zeros (z : Nat) : digitsVal (List.replicate z '0') = 0 := by
  induction z with
  | zero => rfl
  | succ k ih =>
      rw [List.replicate_succ]
      simp only [digitsVal, List.foldl_cons] at ih ⊢
      have h0 : (0 * 10 + ('0'.toNat - 0x30)) = 0 := by decide
      rw [h0]
      exact ih

theorem digitsVal_single (c : Char) : digitsVal [c] = c.toNat - 0x30 := by
  simp [digitsVal]

theorem digitsVal_natDigits : ∀ m, digitsVal (natDigits m) = m := by
  intro m
  induction m using Nat.strong_induction_on with
  | _ m ih =>
    by_cases h : m < 10
    · rw [natDigits_lt h, digitsVal_single, digitChar_toNat]
      omega
    · rw [natDigits_ge (by omega), digitsVal_append,
        ih (m / 10) (Nat.div_lt_self (by omega) (by omega)), digitsVal_single,
        digitChar_toNat]
      simp only [List.length_cons, List.length_nil, pow_one]
      omega

theorem natDigits_digits : ∀ m, ∀ c ∈ natDigits m, isDigitChar c = true := by
  intro m
  induction m using Nat.strong_induction_on with
  | _ m ih =>
    intro c hc
    by_cases h : m < 10
    · rw [natDigits_lt h] at hc
      rcases List.mem_singleton.mp hc with rfl
      exact digitChar_digit m
    · rw [natDigits_ge (by omega)] at hc
      rcases List.mem_append.mp hc with h1 | h1
      · exact ih (m / 10) (Nat.div_lt_self (by omega) (by omega)) c h1
      · rcases List.mem_singleton.mp h1 with rfl
        exact digitChar_digit _

theorem natDigits_ne_nil (m : Nat) : natDigits m ≠ [] := by
  by_cases h : m < 10
  · rw [natDigits_lt h]; simp
  · rw [natDigits_ge (by omega)]; simp

theorem natDigits_length_pos (m : Nat) : 1 ≤ (natDigits m).length := by
  cases hl : natDigits m with
  | nil => exact absurd hl (natDigits_ne_nil m)
  | cons c t => simp

theorem natDigits_head_pos : ∀ m, 1 ≤ m →
    ∃ c t, natDigits m = c :: t ∧ isDigitChar c = true ∧ c ≠ '0' := by
  intro m
  induction m using Nat.strong_induction_on with
  | _ m ih =>
    intro hm
    by_cases h : m < 10
    · rw [natDigits_lt h]
      refine ⟨digitChar m, [], rfl, digitChar_digit m, ?_⟩
      interval_cases m <;> decide
    · obtain ⟨c, t, hl, hdig, hne⟩ :=
        ih (m / 10) (Nat.div_lt_self (by omega) (by omega)) (by omega)
      rw [natDigits_ge (by omega), hl]
      exact ⟨c, t ++ [digitChar (m % 10)], by simp, hdig, hne⟩

theorem lt_pow10_self (m : Nat) : m < 10 ^ m := by
  induction m with
  | zero => decide
  | succ k ih =>
      have h1 : 1 ≤ 10 ^ k := Nat.one_le_pow _ _ (by omega)
      rw [pow_succ]
      omega

theorem strip10_stop (fuel m : Nat) (h : ¬ m % 10 = 0) : strip10 fuel m = (m, 0) := by
  cases fuel <;> simp [strip10, h]

theorem strip10_pow : ∀ fuel z s, s % 10 ≠ 0 → z ≤ fuel →
    strip10 fuel (s * 10 ^ z) = (s, z) := by
  intro fuel
  induction fuel with
  | zero =>
      intro z s hs hz
      have hz0 : z = 0 := by omega
      subst hz0
      rw [pow_zero, mul_one]
      rfl
  | succ f ih =>
      intro z s hs hz
      cases z with
      | zero => rw [pow_zero, mul_one]; exact strip10_stop _ _ hs
      | succ y =>
          have hs0 : s ≠ 0 := by intro h; rw [h] at hs; simp at hs
          have hpow : 0 < 10 ^ (y + 1) := Nat.pos_pow_of_pos _ (by omega)
          have hmod : (s * 10 ^ (y + 1)) % 10 = 0 := by
            have hdvd : 10 ∣ s * 10 ^ (y + 1) := ⟨s * 10 ^ y, by ring⟩
            omega
          have hne : s * 10 ^ (y + 1) ≠ 0 := by positivity
          have hdiv : s * 10 ^ (y + 1) / 10 = s * 10 ^ y := by
            rw [pow_succ, ← mul_assoc, Nat.mul_div_cancel _ (by omega)]
          simp [strip10, hmod, hne, hdiv, ih y s hs (by omega : y ≤ f)]

theorem strip10_spec : ∀ fuel m, 0 < m → m < 10 ^ fuel →
    0 < (strip10 fuel m).1 ∧ (strip10 fuel m).1 % 10 ≠ 0 ∧
      m = (strip10 fuel m).1 * 10 ^ (strip10 fuel m).2 := by
  intro fuel
  induction fuel with
  | zero => intro m h1 h2; omega
  | succ f ih =>
      intro m h1 h2
      by_cases h : m % 10 = 0
      · have h10 : 10 ≤ m := by omega
        have hdivpos : 0 < m / 10 := by omega
        have hdivlt : m / 10 < 10 ^ f := by
          rw [pow_succ] at h2
          omega
        obtain ⟨p1, p2, p3⟩ := ih (m / 10) hdivpos hdivlt
        have hne : m ≠ 0 := by omega
        have hcons : strip10 (f + 1) m
            = ((strip10 f (m / 10)).1, (strip10 f (m / 10)).2 + 1) := by
          simp [strip10, h, hne]
        rw [hcons]
        refine ⟨p1, p2, ?_⟩
        have hm10 : m = m / 10 * 10 := by omega
        rw [pow_succ]
        conv_lhs => rw [hm10, p3]
        ring
      · rw [strip10_stop _ _ h]
        exact ⟨by omega, h, by simp⟩

theorem wfNum_mkJsNum (neg : Bool) (m : Nat) (E : Int) :
    wfNum (mkJsNum neg m E) = true := by
  unfold mkJsNum
  by_cases h : m = 0
  · simp [h, wfNum]
  · obtain ⟨p1, p2, _⟩ := strip10_spec m m (by omega) (lt_pow10_self m)
    simp only [h, if_false]
    by_cases hov : geOvfl (strip10 m m).1
        (E + (strip10 m m).2 + ((natDigits (strip10 m m).1).length : Int)) = true
    · simp [hov, wfNum]
    · rw [Bool.not_eq_true] at hov
      have hs0 : ¬ (strip10 m m).1 = 0 := by omega
      simp [hov, wfNum, p2, hs0]

theorem digitSpan_all {l : List Char} (h : ∀ c ∈ l, isDigitChar c = true) :
    digitSpan l = (l, []) := by
  have := digitSpan_append h (show digitSpan [] = ([], []) from rfl)
  simpa using this

theorem digitSpan_head_not {c : Char} (t : List Char) (h : isDigitChar c = false) :
    digitSpan (c :: t) = ([], c :: t) := by
  simp [digitSpan, h]

theorem digitsVal_zero_cons (l : List Char) : digitsVal ('0' :: l) = digitsVal l := by
  have h := digitsVal_append ['0'] l
  simpa [digitsVal_single] using h

/-- Evaluate `numValuePos` once the lexical split of the input is known. -/
theorem numValuePos_eval (neg : Bool) (X : List Char)
    {ip1 ip2 fp1 fp2 : List Char} {ex : Int}
    (hip : digitSpan X = (ip1, ip2))
    (hfp : fracSplit ip2 = (fp1, fp2))
    (hex : expVal fp2 = ex) :
    numValuePos neg X = mkJsNum neg (digitsVal (ip1 ++ fp1)) (ex - fp1.length) := by
  unfold numValuePos
  rw [hip]
  simp only []
  rw [hfp]
  simp only []
  rw [hex]

/-- Evaluate `mkJsNum` on an explicit canonical decomposition. -/
theorem mkJsNum_eval {s : Nat} {E : Int} (z : Nat) (neg : Bool) (hs : 0 < s)
    (h10 : s % 10 ≠ 0)
    (hov : geOvfl s (E + z + ((natDigits s).length : Int)) = false) :
    mkJsNum neg (s * 10 ^ z) E = .fin neg s (E + z + ((natDigits s).length : Int)) := by
  unfold mkJsNum
  have hm : ¬ (s * 10 ^ z = 0) := by positivity
  have hz : z ≤ s * 10 ^ z := by
    have h1 := lt_pow10_self z
    have h2 : 10 ^ z ≤ s * 10 ^ z := Nat.le_mul_of_pos_left _ hs
    omega
  rw [if_neg hm, strip10_pow (s * 10 ^ z) z s h10 hz]
  simp only []
  rw [hov]
  simp

theorem fracSplit_not {c : Char} (t : List Char) (h : c ≠ '.') :
    fracSplit (c :: t) = ([], c :: t) := by
  unfold fracSplit
  split
  · rename_i t2 heq
    rw [List.cons.injEq] at heq
    exact absurd heq.1 h
  · rfl

/-- Specialization of `mkJsNum_eval` to an already-stripped mantissa. -/
theorem mkJsNum_eval0 {s : Nat} {E : Int} (neg : Bool) (hs : 0 < s)
    (h10 : s % 10 ≠ 0)
    (hov : geOvfl s (E + ((natDigits s).length : Int)) = false) :
    mkJsNum neg s E = .fin neg s (E + ((natDigits s).length : Int)) := by
  have h := mkJsNum_eval 0 neg hs h10 (by simpa using hov)
  simpa using h

theorem numValuePos_printPos {s : Nat} {n : Int} (neg : Bool) (hs : 0 < s)
    (h10 : s % 10 ≠ 0) (hov : geOvfl s n = false) :
    numValuePos neg (printPos s n) = .fin neg s n := by
  have hdig := natDigits_digits s
  have hsd := digitsVal_natDigits s
  obtain ⟨c0, t0, hds, hc0dig, hc0ne⟩ := natDigits_head_pos s hs
  unfold printPos
  simp only []
  split
  · -- integer layout: digits then zeros
    rename_i hc
    simp only [Bool.and_eq_true, decide_eq_true_eq] at hc
    obtain ⟨hkn, _⟩ := hc
    have hall : ∀ c ∈ natDigits s
        ++ List.replicate (n - ((natDigits s).length : Int)).toNat '0',
        isDigitChar c = true := by
      intro c hc2
      rcases List.mem_append.mp hc2 with h1 | h1
      · exact hdig c h1
      · rw [List.eq_of_mem_replicate h1]; decide
    rw [numValuePos_eval neg _ (digitSpan_all hall) rfl (show expVal [] = 0 from rfl)]
    rw [List.append_nil, digitsVal_append, digitsVal_zeros, hsd,
      List.length_replicate, Nat.add_zero]
    rw [mkJsNum_eval _ neg hs h10 (by
      convert hov using 2
      simp only [List.length_nil, Nat.cast_zero]
      omega)]
    congr 1
    simp only [List.length_nil, Nat.cast_zero]
    omega
  · rename_i hc1
    split
    · -- decimal point inside the digits
      rename_i hc
      simp only [Bool.and_eq_true, decide_eq_true_eq] at hc1 hc
      obtain ⟨hn0, hn21⟩ := hc
      have hklt : n < ((natDigits s).length : Int) := by
        by_contra hcon
        exact hc1 ⟨by omega, hn21⟩
      have hip : digitSpan ((natDigits s).take n.toNat
          ++ '.' :: (natDigits s).drop n.toNat)
          = ((natDigits s).take n.toNat, '.' :: (natDigits s).drop n.toNat) :=
        digitSpan_append (fun c hc2 => hdig c (List.take_subset _ _ hc2))
          (@digitSpan_head_not '.' _ (by decide))
      have hfp : fracSplit ('.' :: (natDigits s).drop n.toNat)
          = ((natDigits s).drop n.toNat, []) := by
        show digitSpan ((natDigits s).drop n.toNat) = _
        exact digitSpan_all (fun c hc2 => hdig c (List.drop_subset _ _ hc2))
      rw [numValuePos_eval neg _ hip hfp (show expVal [] = 0 from rfl)]
      rw [List.take_append_drop, hsd]
      rw [mkJsNum_eval0 neg hs h10 (by
        convert hov using 2
        simp only [List.length_drop]
        omega)]
      congr 1
      simp only [List.length_drop]
      omega
    · rename_i hc2
      split
      · -- 0.00…digits layout
        rename_i hc
        simp only [Bool.and_eq_true, decide_eq_true_eq] at hc
        obtain ⟨hn6, hn0⟩ := hc
        have hall : ∀ c ∈ List.replicate (-n).toNat '0' ++ natDigits s,
            isDigitChar c = true := by
          intro c hc2
          rcases List.mem_append.mp hc2 with h1 | h1
          · rw [List.eq_of_mem_replicate h1]; decide
          · exact hdig c h1
        have hip : digitSpan ('0' :: '.' :: (List.replicate (-n).toNat '0'
            ++ natDigits s))
            = (['0'], '.' :: (List.replicate (-n).toNat '0' ++ natDigits s)) := by
          have h := digitSpan_append
            (show ∀ c ∈ ['0'], isDigitChar c = true by
              intro c hc2; simp at hc2; subst hc2; decide)
            (@digitSpan_head_not '.'
              (List.replicate (-n).toNat '0' ++ natDigits s) (by decide))
          simpa using h
        have hfp : fracSplit ('.' :: (List.replicate (-n).toNat '0' ++ natDigits s))
            = (List.replicate (-n).toNat '0' ++ natDigits s, []) := by
          show digitSpan _ = _
          exact digitSpan_all hall
        rw [numValuePos_eval neg _ hip hfp (show expVal [] = 0 from rfl)]
        have hm : digitsVal (['0'] ++ (List.replicate (-n).toNat '0' ++ natDigits s))
            = s := by
          rw [show (['0'] ++ (List.replicate (-n).toNat '0' ++ natDigits s))
              = '0' :: (List.replicate (-n).toNat '0' ++ natDigits s) from rfl]
          rw [digitsVal_zero_cons, digitsVal_append, digitsVal_zeros, hsd]
          omega
        rw [hm]
        rw [mkJsNum_eval0 neg hs h10 (by
          convert hov using 2
          simp only [List.length_append, List.length_replicate]
          omega)]
        congr 1
        simp only [List.length_append, List.length_replicate]
        omega
      · -- exponent layout
        rename_i hc3
        have heds := natDigits_digits (n - 1).natAbs
        have hexval : expVal ('e' :: (if n - 1 < 0 then '-' else '+')
            :: natDigits (n - 1).natAbs) = n - 1 := by
          by_cases hsgn : n - 1 < 0
          · rw [if_pos hsgn]
            show -(digitsVal (digitSpan (natDigits (n-1).natAbs)).1 : Int) = n - 1
            rw [digitSpan_all heds, digitsVal_natDigits]
            omega
          · rw [if_neg hsgn]
            show (digitsVal (digitSpan (natDigits (n-1).natAbs)).1 : Int) = n - 1
            rw [digitSpan_all heds, digitsVal_natDigits]
            omega
        rw [hds]
        cases t0 with
        | nil =>
            have hip : digitSpan ([c0] ++ 'e' :: (if n - 1 < 0 then '-' else '+')
                :: natDigits (n - 1).natAbs)
                = ([c0], 'e' :: (if n - 1 < 0 then '-' else '+')
                    :: natDigits (n - 1).natAbs) :=
              digitSpan_append
                (by intro c hc2; simp at hc2; subst hc2; exact hc0dig)
                (@digitSpan_head_not 'e' _ (by decide))
            have hfp : fracSplit ('e' :: (if n - 1 < 0 then '-' else '+')
                :: natDigits (n - 1).natAbs)
                = ([], 'e' :: (if n - 1 < 0 then '-' else '+')
                    :: natDigits (n - 1).natAbs) :=
              fracSplit_not _ (by decide)
            rw [numValuePos_eval neg _ hip hfp hexval]
            rw [List.append_nil, show digitsVal [c0] = s from by rw [← hds, hsd]]
            have hk : ((natDigits s).length : Int) = 1 := by rw [hds]; rfl
            rw [mkJsNum_eval0 neg hs h10 (by
              convert hov using 2
              rw [hk]
              simp only [List.length_nil, Nat.cast_zero]
              omega)]
            congr 1
            rw [hk]
            simp only [List.length_nil, Nat.cast_zero]
            omega
        | cons t1 t2 =>
            have hip : digitSpan ((c0 :: '.' :: (t1 :: t2)) ++ 'e'
                :: (if n - 1 < 0 then '-' else '+') :: natDigits (n - 1).natAbs)
                = ([c0], '.' :: ((t1 :: t2) ++ 'e'
                    :: (if n - 1 < 0 then '-' else '+')
                    :: natDigits (n - 1).natAbs)) := by
              have h := digitSpan_append
                (show ∀ c ∈ [c0], isDigitChar c = true by
                  intro c hc2; simp at hc2; subst hc2; exact hc0dig)
                (@digitSpan_head_not '.' ((t1 :: t2) ++ 'e'
                  :: (if n - 1 < 0 then '-' else '+') :: natDigits (n - 1).natAbs)
                  (by decide))
              simpa using h
            have hfp : fracSplit ('.' :: ((t1 :: t2) ++ 'e'
                :: (if n - 1 < 0 then '-' else '+') :: natDigits (n - 1).natAbs))
                = (t1 :: t2, 'e' :: (if n - 1 < 0 then '-' else '+')
                    :: natDigits (n - 1).natAbs) := by
              show digitSpan _ = _
              exact digitSpan_append
                (fun c hc2 => hdig c (by rw [hds]; exact List.mem_cons_of_mem _ hc2))
                (@digitSpan_head_not 'e' _ (by decide))
            rw [numValuePos_eval neg _ hip hfp hexval]
            rw [show ([c0] ++ t1 :: t2) = c0 :: t1 :: t2 from rfl,
              show digitsVal (c0 :: t1 :: t2) = s from by rw [← hds, hsd]]
            have hk : ((natDigits s).length : Int) = ((t1 :: t2).length : Int) + 1 := by
              rw [hds]
              simp
            rw [mkJsNum_eval0 neg hs h10 (by
              convert hov using 2
              rw [hk]
              omega)]
            congr 1
            rw [hk]
            omega

theorem wfNum_fin_zero {neg : Bool} {n : Int}
    (hwf : wfNum (.fin neg 0 n) = true) : neg = false ∧ n = 0 := by
  simp only [wfNum, if_true] at hwf
  simp only [Bool.and_eq_true, Bool.not_eq_true', decide_eq_true_eq] at hwf
  exact hwf

theorem wfNum_fin_pos {neg : Bool} {s : Nat} {n : Int}
    (hwf : wfNum (.fin neg s n) = true) (hs : s ≠ 0) :
    s % 10 ≠ 0 ∧ geOvfl s n = false := by
  simp only [wfNum] at hwf
  rw [if_neg hs] at hwf
  simp only [Bool.and_eq_true, Bool.not_eq_true', decide_eq_true_eq] at hwf
  exact hwf

theorem checkExp_e {sgn : Char} (hsgn : sgn = '+' ∨ sgn = '-') (A : Nat) :
    checkExp ('e' :: sgn :: natDigits A) = true := by
  have h1 := digitSpan_all (natDigits_digits A)
  have h2 := natDigits_ne_nil A
  rcases hsgn with rfl | rfl <;> simp [checkExp, h1, h2]

theorem checkFrac_dot {Y : List Char} (hY : digitSpan Y = (Y, []))
    (hne : Y ≠ []) : checkFrac ('.' :: Y) = true := by
  simp [checkFrac, hY, hne, checkExp]

theorem isNumLit_head_digit {c : Char} (t : List Char) (hdig : isDigitChar c = true)
    (hne0 : c ≠ '0') :
    isNumLit (c :: t) = (isDigitChar c && checkFrac (digitSpan t).2) := by
  have hnd : c ≠ '-' := by
    intro h
    rw [h] at hdig
    exact absurd hdig (by decide)
  simp [isNumLit, hnd, hne0]

theorem isNumLit_dash {c : Char} (t : List Char) (hnd : c ≠ '-') :
    isNumLit ('-' :: c :: t) = isNumLit (c :: t) := by
  simp [isNumLit, hnd]

/-- The printed form of a positive finite value: every character is a
number character, the literal satisfies the grammar, and it starts with
a digit. -/
theorem printPos_spec {s : Nat} {n : Int} (hs : 0 < s) :
    (∀ c ∈ printPos s n, isNumChar c = true) ∧
    isNumLit (printPos s n) = true ∧
    ∃ c t, printPos s n = c :: t ∧ isDigitChar c = true := by
  have hdig := natDigits_digits s
  obtain ⟨c0, t0, hds, hc0dig, hc0ne⟩ := natDigits_head_pos s hs
  unfold printPos
  simp only []
  split
  · -- digits then zeros
    refine ⟨?_, ?_, ?_⟩
    · intro c hc2
      rcases List.mem_append.mp hc2 with h1 | h1
      · exact digit_isNumChar (hdig c h1)
      · rw [List.eq_of_mem_replicate h1]; decide
    · rw [hds, List.cons_append, isNumLit_head_digit _ hc0dig hc0ne]
      have hall : ∀ c ∈ t0 ++ List.replicate (n - ((c0 :: t0).length : Int)).toNat '0',
          isDigitChar c = true := by
        intro c hc2
        rcases List.mem_append.mp hc2 with h1 | h1
        · exact hdig c (by rw [hds]; exact List.mem_cons_of_mem _ h1)
        · rw [List.eq_of_mem_replicate h1]; decide
      rw [digitSpan_all hall]
      simp [hc0dig, checkFrac, checkExp]
    · exact ⟨c0, t0 ++ List.replicate (n - ((natDigits s).length : Int)).toNat '0',
        by rw [hds, List.cons_append], hc0dig⟩
  · rename_i hc1
    split
    · -- decimal point inside
      rename_i hc
      simp only [Bool.and_eq_true, decide_eq_true_eq] at hc1 hc
      obtain ⟨hn0, hn21⟩ := hc
      have hklt : n < ((natDigits s).length : Int) := by
        by_contra hcon
        exact hc1 ⟨by omega, hn21⟩
      have htake : (natDigits s).take n.toNat = c0 :: t0.take (n.toNat - 1) := by
        rw [hds]
        cases hnt : n.toNat with
        | zero => omega
        | succ m => simp
      have hdrop_ne : (natDigits s).drop n.toNat ≠ [] := by
        intro h
        have := congrArg List.length h
        simp only [List.length_drop, List.length_nil] at this
        omega
      have hdropspan : digitSpan ((natDigits s).drop n.toNat)
          = ((natDigits s).drop n.toNat, []) :=
        digitSpan_all (fun c hc2 => hdig c (List.drop_subset _ _ hc2))
      refine ⟨?_, ?_, ?_⟩
      · intro c hc2
        rcases List.mem_append.mp hc2 with h1 | h1
        · exact digit_isNumChar (hdig c (List.take_subset _ _ h1))
        · rcases List.mem_cons.mp h1 with rfl | h2
          · decide
          · exact digit_isNumChar (hdig c (List.drop_subset _ _ h2))
      · rw [htake, List.cons_append, isNumLit_head_digit _ hc0dig hc0ne]
        have hsp : digitSpan (t0.take (n.toNat - 1)
            ++ '.' :: (natDigits s).drop n.toNat)
            = (t0.take (n.toNat - 1), '.' :: (natDigits s).drop n.toNat) :=
          digitSpan_append
            (fun c hc2 => hdig c (by
              rw [hds]
              exact List.mem_cons_of_mem _ (List.take_subset _ _ hc2)))
            (@digitSpan_head_not '.' _ (by decide))
        rw [hsp]
        simp only [hc0dig, Bool.true_and]
        exact checkFrac_dot hdropspan hdrop_ne
      · exact ⟨c0, t0.take (n.toNat - 1) ++ '.' :: (natDigits s).drop n.toNat,
          by rw [htake, List.cons_append], hc0dig⟩
    · rename_i hc2
      split
      · -- 0.00…digits
        have hall : ∀ c ∈ List.replicate (-n).toNat '0' ++ natDigits s,
            isDigitChar c = true := by
          intro c hc2
          rcases List.mem_append.mp hc2 with h1 | h1
          · rw [List.eq_of_mem_replicate h1]; decide
          · exact hdig c h1
        have hne : List.replicate (-n).toNat '0' ++ natDigits s ≠ [] := by
          intro h
          rcases List.append_eq_nil.mp h with ⟨_, h2⟩
          exact natDigits_ne_nil s h2
        refine ⟨?_, ?_, ⟨'0', _, rfl, by decide⟩⟩
        · intro c hc2
          rcases List.mem_cons.mp hc2 with rfl | h1
          · decide
          rcases List.mem_cons.mp h1 with rfl | h2
          · decide
          · exact digit_isNumChar (hall c h2)
        · show isNumLit ('0' :: '.' :: _) = true
          simp only [isNumLit]
          exact checkFrac_dot (digitSpan_all hall) hne
      · -- exponent layout
        rename_i hc3
        have hchexp : checkExp ('e' :: (if n - 1 < 0 then '-' else '+')
            :: natDigits (n - 1).natAbs) = true := by
          by_cases hsgn : n - 1 < 0
          · rw [if_pos hsgn]; exact checkExp_e (Or.inr rfl) _
          · rw [if_neg hsgn]; exact checkExp_e (Or.inl rfl) _
        have hsgnchars : ∀ c ∈ 'e' :: (if n - 1 < 0 then '-' else '+')
            :: natDigits (n - 1).natAbs, isNumChar c = true := by
          intro c hc2
          rcases List.mem_cons.mp hc2 with rfl | h1
          · decide
          rcases List.mem_cons.mp h1 with rfl | h2
          · split <;> decide
          · exact digit_isNumChar (natDigits_digits _ c h2)
        rw [hds]
        cases t0 with
        | nil =>
            refine ⟨?_, ?_, ⟨c0, _, rfl, hc0dig⟩⟩
            · intro c hc2
              simp only [List.singleton_append, List.mem_cons] at hc2
              rcases hc2 with rfl | hc2
              · exact digit_isNumChar hc0dig
              · exact hsgnchars c (by simpa using hc2)
            · show isNumLit (c0 :: 'e' :: _) = true
              rw [isNumLit_head_digit _ hc0dig hc0ne,
                @digitSpan_head_not 'e' _ (by decide)]
              simp only [hc0dig, Bool.true_and]
              exact hchexp
        | cons t1 t2 =>
            have htdig : ∀ c ∈ t1 :: t2, isDigitChar c = true :=
              fun c hc2 => hdig c (by rw [hds]; exact List.mem_cons_of_mem _ hc2)
            refine ⟨?_, ?_, ⟨c0, _, rfl, hc0dig⟩⟩
            · intro c hc2
              rcases List.mem_cons.mp hc2 with rfl | h1
              · exact digit_isNumChar hc0dig
              rcases List.mem_cons.mp h1 with rfl | h2
              · decide
              rcases List.mem_append.mp h2 with h3 | h3
              · exact digit_isNumChar (htdig c h3)
              · exact hsgnchars c h3
            · show isNumLit (c0 :: '.' :: ((t1 :: t2) ++ 'e' :: _)) = true
              rw [isNumLit_head_digit _ hc0dig hc0ne,
                @digitSpan_head_not '.' _ (by decide)]
              simp only [hc0dig, Bool.true_and]
              show checkFrac ('.' :: _) = true
              have hsp : digitSpan ((t1 :: t2) ++ 'e'
                  :: (if n - 1 < 0 then '-' else '+') :: natDigits (n - 1).natAbs)
                  = (t1 :: t2, 'e' :: (if n - 1 < 0 then '-' else '+')
                      :: natDigits (n - 1).natAbs) :=
                digitSpan_append htdig (@digitSpan_head_not 'e' _ (by decide))
              simp only [checkFrac, hsp]
              rw [Bool.and_eq_true]
              exact ⟨by simp, hchexp⟩

theorem numValue_cons {c : Char} (t : List Char) (h : c ≠ '-') :
    numValue (c :: t) = numValuePos false (c :: t) := by
  simp [numValue, h]

/-- Print-then-parse identity for finite numbers in canonical form. -/
theorem numValue_printNum_fin {neg : Bool} {s : Nat} {n : Int}
    (hwf : wfNum (.fin neg s n) = true) :
    numValue (printNum (.fin neg s n)) = .fin neg s n := by
  by_cases hs : s = 0
  · subst hs
    obtain ⟨hneg, hn⟩ := wfNum_fin_zero hwf
    subst hneg
    subst hn
    decide
  · obtain ⟨h10, hov⟩ := wfNum_fin_pos hwf hs
    have hpp : ∀ b, numValuePos b (printPos s n) = .fin b s n :=
      fun b => @numValuePos_printPos s n b (by omega) h10 hov
    obtain ⟨c, t, hsh, hcd⟩ := (@printPos_spec s n (by omega)).2.2
    simp only [printNum]
    rw [if_neg hs]
    cases neg with
    | false =>
        rw [show ((if false = true then ['-'] else []) ++ printPos s n)
            = printPos s n from by simp]
        rw [hsh, numValue_cons t (by
          intro hcon
          rw [hcon] at hcd
          exact absurd hcd (by decide)), ← hsh]
        exact hpp false
    | true =>
        rw [show ((if true = true then ['-'] else []) ++ printPos s n)
            = '-' :: printPos s n from by simp]
        rw [show numValue ('-' :: printPos s n)
            = numValuePos true (printPos s n) from rfl]
        exact hpp true

/-- Characters, grammar and head shape of a printed finite number. -/
theorem printNum_fin_spec {neg : Bool} {s : Nat} {n : Int}
    (hwf : wfNum (.fin neg s n) = true) :
    (∀ c ∈ printNum (.fin neg s n), isNumChar c = true) ∧
    isNumLit (printNum (.fin neg s n)) = true ∧
    ∃ c t, printNum (.fin neg s n) = c :: t ∧ (isDigitChar c = true ∨ c = '-') := by
  by_cases hs : s = 0
  · subst hs
    obtain ⟨hneg, hn⟩ := wfNum_fin_zero hwf
    subst hneg
    subst hn
    exact ⟨by decide, by decide, '0', [], by decide, Or.inl (by decide)⟩
  · obtain ⟨hchars, hlit, c, t, hsh, hcd⟩ := @printPos_spec s n (by omega)
    simp only [printNum]
    rw [if_neg hs]
    cases neg with
    | false =>
        rw [show ((if false = true then ['-'] else []) ++ printPos s n)
            = printPos s n from by simp]
        exact ⟨hchars, hlit, c, t, hsh, Or.inl hcd⟩
    | true =>
        rw [show ((if true = true then ['-'] else []) ++ printPos s n)
            = '-' :: printPos s n from by simp]
        refine ⟨?_, ?_, '-', printPos s n, rfl, Or.inr rfl⟩
        · intro x hx
          rcases List.mem_cons.mp hx with rfl | h1
          · decide
          · exact hchars x h1
        · rw [hsh, isNumLit_dash t (by
            intro hcon
            rw [hcon] at hcd
            exact absurd hcd (by decide)), ← hsh]
          exact hlit

/-- The number atom of the round trip: parsing a printed finite number
(any whitespace prefix, delimiter-headed remainder) recovers the value. -/
theorem parseVal_atom_numfin {neg : Bool} {s : Nat} {n : Int}
    (hwf : wfNum (.fin neg s n) = true) (fuel : Nat) {w : List Char} (hw : wsOnly w)
    {rest : List Char} (hrest : numDelim rest = true) :
    parseVal (fuel + 1) (w ++ (printNum (.fin neg s n) ++ rest))
      = .ok (.num (.fin neg s n), rest) := by
  obtain ⟨hchars, hlit, c, t, hsh, hcd⟩ := printNum_fin_spec hwf
  obtain ⟨hws, hn, ht, hf, hq, hlb, hob, _, _, hnum⟩ := numStart_facts
    (hcd.elim Or.inl (fun h => Or.inr h))
  rw [parseVal, skipWs_ws_append hw, hsh, List.cons_append, skipWs_cons_not _ hws]
  have htake : takeNum (c :: (t ++ rest)) = (c :: t, rest) := by
    have h0 : takeNum (printNum (.fin neg s n) ++ rest)
        = (printNum (.fin neg s n), rest) := takeNum_append hchars hrest
    rwa [hsh, List.cons_append] at h0
  have hlit2 : isNumLit (c :: t) = true := hsh ▸ hlit
  have hval : numValue (c :: t) = JsNum.fin neg s n := by
    rw [← hsh]
    exact numValue_printNum_fin hwf
  simp [hn, ht, hf, hq, hlb, hob, hnum, htake, hlit2, hval]

/-- Head shape of a printed number: a digit, `'-'`, or the `'n'` of
`null` — never whitespace or a closing bracket. -/
theorem printNum_head {v : JsNum} (hwf : wfNum v = true) :
    ∃ c t, printNum v = c :: t ∧ isWsChar c = false ∧ c ≠ ']' ∧ c ≠ '}' := by
  cases v with
  | inf b => exact ⟨'n', _, rfl, by decide, by decide, by decide⟩
  | fin neg s n =>
      obtain ⟨_, _, c, t, hsh, hcd⟩ := printNum_fin_spec hwf
      rcases hcd with h | rfl
      · obtain ⟨hws, _, _, _, _, _, _, hrb, hcb, _⟩ := numStart_facts (Or.inl h)
        exact ⟨c, t, hsh, hws, hrb, hcb⟩
      · exact ⟨'-', t, hsh, by decide, by decide, by decide⟩

theorem wfNum_numValuePos (neg : Bool) (l : List Char) :
    wfNum (numValuePos neg l) = true := by
  unfold numValuePos
  exact wfNum_mkJsNum _ _ _

theorem wfNum_numValue (l : List Char) : wfNum (numValue l) = true := by
  unfold numValue
  split <;> exact wfNum_numValuePos _ _

theorem hasKey_infToNull : ∀ (ms : List (String × Json)) (k : String),
    hasKey (infToNullObj ms) k = hasKey ms k := by
  intro ms k
  induction ms with
  | nil => rfl
  | cons m t ih =>
      rcases m with ⟨k2, v⟩
      simp only [infToNullObj, hasKey, ih]

theorem noDupKeys_infToNull : ∀ ms : List (String × Json),
    noDupKeys (infToNullObj ms) = noDupKeys ms := by
  intro ms
  induction ms with
  | nil => rfl
  | cons m t ih =>
      rcases m with ⟨k, v⟩
      simp only [infToNullObj, noDupKeys, hasKey_infToNull, ih]

/-!
### Serialized values: head shape and atomic round-trips
-/

theorem serL_head {v : Json} (hwf : wfJson v = true) (gap ind : List Char) :
    ∃ c t, serL gap ind v = c :: t ∧ isWsChar c = false ∧ c ≠ ']' ∧ c ≠ '}' := by
  cases v with
  | null => exact ⟨'n', _, rfl, by decide, by decide, by decide⟩
  | bool b =>
      cases b
      · exact ⟨'f', _, rfl, by decide, by decide, by decide⟩
      · exact ⟨'t', _, rfl, by decide, by decide, by decide⟩
  | num v =>
      have h : wfNum v = true := hwf
      obtain ⟨c, t, hl, hws, hrb, hcb⟩ := printNum_head h
      exact ⟨c, t, by rw [show serL gap ind (.num v) = printNum v from rfl, hl], hws, hrb, hcb⟩
  | str s => exact ⟨'"', _, rfl, by decide, by decide, by decide⟩
  | arr es =>
      cases es
      · exact ⟨'[', _, rfl, by decide, by decide, by decide⟩
      · exact ⟨'[', _, rfl, by decide, by decide, by decide⟩
  | obj ms =>
      rcases ms with _ | ⟨⟨k, v⟩, ms⟩
      · exact ⟨'{', _, rfl, by decide, by decide, by decide⟩
      · exact ⟨'{', _, rfl, by decide, by decide, by decide⟩

theorem skipWs_ws_serL {v : Json} (hwf : wfJson v = true) (gap ind : List Char)
    {w : List Char} (hw : wsOnly w) (x : List Char) :
    skipWs (w ++ (serL gap ind v ++ x)) = serL gap ind v ++ x := by
  rw [skipWs_ws_append hw]
  obtain ⟨c, t, hl, hws, _, _⟩ := serL_head hwf gap ind
  rw [hl, List.cons_append, skipWs_cons_not _ hws]

theorem parseVal_atom_null (fuel : Nat) {w : List Char} (hw : wsOnly w) (rest : List Char) :
    parseVal (fuel + 1) (w ++ (['n', 'u', 'l', 'l'] ++ rest)) = .ok (.null, rest) := by
  rw [parseVal, skipWs_ws_append hw]
  simp [skipWs, isWsChar]

theorem parseVal_atom_true (fuel : Nat) {w : List Char} (hw : wsOnly w) (rest : List Char) :
    parseVal (fuel + 1) (w ++ (['t', 'r', 'u', 'e'] ++ rest)) = .ok (.bool true, rest) := by
  rw [parseVal, skipWs_ws_append hw]
  simp [skipWs, isWsChar]

theorem parseVal_atom_false (fuel : Nat) {w : List Char} (hw : wsOnly w) (rest : List Char) :
    parseVal (fuel + 1) (w ++ (['f', 'a', 'l', 's', 'e'] ++ rest)) = .ok (.bool false, rest) := by
  rw [parseVal, skipWs_ws_append hw]
  simp [skipWs, isWsChar]

theorem parseVal_atom_str (s : String) (fuel : Nat) {w : List Char} (hw : wsOnly w)
    (rest : List Char) :
    parseVal (fuel + 1) (w ++ (quoteChars s.data ++ rest)) = .ok (.str s, rest) := by
  rw [parseVal, skipWs_ws_append hw]
  have hshape : quoteChars s.data ++ rest
      = '"' :: (s.data.flatMap escapeChar ++ '"' :: rest) := by
    simp [quoteChars]
  rw [hshape, skipWs_cons_not _ (by decide)]
  simp
  have hlen2 : s.data.length
      < (List.map (List.length ∘ escapeChar) s.data).sum + (rest.length + 1) + 1 := by
    have h1 := le_length_flatMap_escape s.data
    have h2 := List.length_flatMap s.data escapeChar
    omega
  rw [parseStringBody_flat s.data _ [] rest hlen2]
  simp [strMk_data]

/-!
### Object members: distinct keys and deduplication
-/

theorem hasKey_of_mem : ∀ {t : List (String × Json)} {kv : String × Json}, kv ∈ t →
    hasKey t kv.1 = true := by
  intro t
  induction t with
  | nil => intro kv h; cases h
  | cons m r ih =>
      intro kv h
      rcases List.mem_cons.mp h with rfl | h2
      · simp [hasKey]
      · rcases m with ⟨k', v'⟩
        rw [hasKey, ih h2]
        simp

theorem hasKey_append (a b : List (String × Json)) (k : String) :
    hasKey (a ++ b) k = (hasKey a k || hasKey b k) := by
  induction a with
  | nil => simp [hasKey]
  | cons m t ih =>
      rcases m with ⟨k', v'⟩
      simp [hasKey, ih, Bool.or_assoc]

theorem setMember_fresh : ∀ {acc : List (String × Json)} {k : String} (v : Json),
    hasKey acc k = false → setMember acc k v = acc ++ [(k, v)] := by
  intro acc
  induction acc with
  | nil => intro k v _; rfl
  | cons m t ih =>
      intro k v h
      rcases m with ⟨k', v'⟩
      rw [hasKey] at h
      simp only [Bool.or_eq_false_iff, decide_eq_false_iff_not] at h
      rw [setMember, if_neg h.1, ih v h.2]
      simp

theorem foldl_setMember_noDup : ∀ (ms : List (String × Json)) (acc : List (String × Json)),
    noDupKeys ms = true → (∀ kv ∈ ms, hasKey acc kv.1 = false) →
    ms.foldl (fun a m => setMember a m.1 m.2) acc = acc ++ ms := by
  intro ms
  induction ms with
  | nil => intro acc _ _; simp
  | cons m t ih =>
      intro acc hnd hfresh
      rcases m with ⟨k, v⟩
      rw [noDupKeys, Bool.and_eq_true] at hnd
      obtain ⟨hk, hnd2⟩ := hnd
      rw [Bool.not_eq_true'] at hk
      simp only [List.foldl_cons]
      have hfr : hasKey acc k = false := hfresh (k, v) (List.mem_cons_self _ _)
      rw [setMember_fresh v hfr]
      rw [ih (acc ++ [(k, v)]) hnd2 ?fresh2]
      · simp
      case fresh2 =>
        intro kv hkv
        rw [hasKey_append]
        have h1 : hasKey acc kv.1 = false := hfresh kv (List.mem_cons_of_mem _ hkv)
        have h2 : hasKey [(k, v)] kv.1 = false := by
          by_cases hkk : k = kv.1
          · exfalso
            have := hasKey_of_mem hkv
            rw [← hkk, hk] at this
            cases this
          · simp [hasKey, hkk]
        rw [h1, h2]
        rfl

theorem dedup_of_noDup {ms : List (String × Json)} (h : noDupKeys ms = true) :
    dedupMembers ms = ms := by
  unfold dedupMembers
  rw [foldl_setMember_noDup ms [] h (fun kv _ => rfl)]
  simp

theorem hasKey_setMember : ∀ (ms : List (String × Json)) (k : String) (v : Json) (k2 : String),
    hasKey (setMember ms k v) k2 = (hasKey ms k2 || decide (k = k2)) := by
  intro ms
  induction ms with
  | nil => intro k v k2; simp [setMember, hasKey]
  | cons m t ih =>
      intro k v k2
      rcases m with ⟨k', v'⟩
      rw [setMember]
      split
      · rename_i heq
        subst heq
        simp [hasKey]
        by_cases h2 : k' = k2 <;> simp [h2]
      · rw [hasKey, ih, hasKey]
        simp [Bool.or_assoc]

theorem noDupKeys_setMember : ∀ {ms : List (String × Json)} (k : String) (v : Json),
    noDupKeys ms = true → noDupKeys (setMember ms k v) = true := by
  intro ms
  induction ms with
  | nil => intro k v _; simp [setMember, noDupKeys, hasKey]
  | cons m t ih =>
      intro k v h
      rcases m with ⟨k', v'⟩
      rw [noDupKeys, Bool.and_eq_true] at h
      obtain ⟨hk, hnd⟩ := h
      rw [Bool.not_eq_true'] at hk
      rw [setMember]
      split
      · rename_i heq
        subst heq
        rw [noDupKeys, hk, hnd]
        rfl
      · rename_i hne
        rw [noDupKeys, Bool.and_eq_true, hasKey_setMember]
        refine ⟨?_, ih k v hnd⟩
        rw [hk]
        simp only [Bool.false_or, Bool.not_eq_true', decide_eq_false_iff_not]
        exact fun hcontra => hne hcontra.symm

theorem mem_setMember : ∀ {ms : List (String × Json)} {k : String} {v : Json}
    {x : String × Json}, x ∈ setMember ms k v → x ∈ ms ∨ x = (k, v) := by
  intro ms
  induction ms with
  | nil => intro k v x h; right; simpa [setMember] using h
  | cons m t ih =>
      intro k v x h
      rcases m with ⟨k', v'⟩
      rw [setMember] at h
      split at h
      · rcases List.mem_cons.mp h with rfl | h2
        · exact Or.inr rfl
        · exact Or.inl (List.mem_cons_of_mem _ h2)
      · rcases List.mem_cons.mp h with rfl | h2
        · exact Or.inl (List.mem_cons_self _ _)
        · rcases ih h2 with h3 | h3
          · exact Or.inl (List.mem_cons_of_mem _ h3)
          · exact Or.inr h3

theorem dedup_invariant (ms : List (String × Json)) : ∀ acc,
    noDupKeys acc = true →
    noDupKeys (ms.foldl (fun a m => setMember a m.1 m.2) acc) = true ∧
    (∀ x ∈ ms.foldl (fun a m => setMember a m.1 m.2) acc, x ∈ acc ∨ x ∈ ms) := by
  induction ms with
  | nil => intro acc h; exact ⟨h, fun x hx => Or.inl hx⟩
  | cons m t ih =>
      intro acc h
      rw [List.foldl_cons]
      obtain ⟨h1, h2⟩ := ih (setMember acc m.1 m.2) (noDupKeys_setMember _ _ h)
      refine ⟨h1, ?_⟩
      intro x hx
      rcases h2 x hx with hx2 | hx2
      · rcases mem_setMember hx2 with hx3 | hx3
        · exact Or.inl hx3
        · right
          rw [hx3]
          exact List.mem_cons_self _ _
      · exact Or.inr (List.mem_cons_of_mem _ hx2)

theorem noDupKeys_dedup (ms : List (String × Json)) : noDupKeys (dedupMembers ms) = true :=
  (dedup_invariant ms [] rfl).1

theorem mem_dedup {ms : List (String × Json)} {x : String × Json}
    (h : x ∈ dedupMembers ms) : x ∈ ms := by
  rcases (dedup_invariant ms [] rfl).2 x h with h2 | h2
  · cases h2
  · exact h2

theorem wfArr_iff (es : List Json) : wfArr es = true ↔ ∀ e ∈ es, wfJson e = true := by
  induction es with
  | nil => simp [wfArr]
  | cons e t ih => simp [wfArr, Bool.and_eq_true, ih]

theorem wfObj_iff (ms : List (String × Json)) :
    wfObj ms = true ↔ ∀ kv ∈ ms, wfJson kv.2 = true := by
  induction ms with
  | nil => simp [wfObj]
  | cons m t ih =>
      rcases m with ⟨k, v⟩
      simp [wfObj, Bool.and_eq_true, ih]

theorem wfObj_dedup {ms : List (String × Json)} (h : wfObj ms = true) :
    wfObj (dedupMembers ms) = true := by
  rw [wfObj_iff] at h ⊢
  exact fun kv hkv => h kv (mem_dedup hkv)

/-!
### Serializer shape lemmas (right-associated, with the continuation absorbed)
-/

theorem serL_arr_cons_append (gap ind : List Char) (e : Json) (es : List Json)
    (rest : List Char) :
    serL gap ind (.arr (e :: es)) ++ rest
      = '[' :: (nlIndent gap (ind ++ gap) ++ (serL gap (ind ++ gap) e
          ++ (serArrTail gap (ind ++ gap) es ++ (nlIndent gap ind ++ (']' :: rest))))) := by
  simp [serL, List.append_assoc]

theorem serL_obj_cons_append (gap ind : List Char) (k : String) (v : Json)
    (ms : List (String × Json)) (rest : List Char) :
    serL gap ind (.obj ((k, v) :: ms)) ++ rest
      = '{' :: (nlIndent gap (ind ++ gap) ++ (quoteChars k.data
          ++ (':' :: (colonPad gap ++ (serL gap (ind ++ gap) v
          ++ (serObjTail gap (ind ++ gap) ms ++ (nlIndent gap ind ++ ('}' :: rest)))))))) := by
  simp [serL, List.append_assoc]

theorem serArrTail_cons_append (gap ind : List Char) (x : Json) (xs : List Json)
    (z : List Char) :
    serArrTail gap ind (x :: xs) ++ z
      = ',' :: (nlIndent gap ind ++ (serL gap ind x ++ (serArrTail gap ind xs ++ z))) := by
  simp [serArrTail, List.append_assoc]

theorem serObjTail_cons_append (gap ind : List Char) (k : String) (v : Json)
    (ms : List (String × Json)) (z : List Char) :
    serObjTail gap ind ((k, v) :: ms) ++ z
      = ',' :: (nlIndent gap ind ++ (quoteChars k.data ++ (':' :: (colonPad gap
          ++ (serL gap ind v ++ (serObjTail gap ind ms ++ z)))))) := by
  simp [serObjTail, List.append_assoc]

theorem numDelim_cons {c : Char} (l : List Char) (h : isNumChar c = false) :
    numDelim (c :: l) = true := by
  simp [numDelim, h]

theorem numDelim_tail_arr (gap ind indC : List Char) (es : List Json) (rest : List Char) :
    numDelim (serArrTail gap ind es ++ (nlIndent gap indC ++ (']' :: rest))) = true := by
  cases es with
  | nil =>
      rw [show serArrTail gap ind [] = [] from rfl, List.nil_append]
      unfold nlIndent
      split
      · rw [List.nil_append]
        exact numDelim_cons _ (by decide)
      · rw [List.cons_append]
        exact numDelim_cons _ (by decide)
  | cons e es2 =>
      rw [serArrTail_cons_append]
      exact numDelim_cons _ (by decide)

theorem numDelim_tail_obj (gap ind indC : List Char) (ms : List (String × Json))
    (rest : List Char) :
    numDelim (serObjTail gap ind ms ++ (nlIndent gap indC ++ ('}' :: rest))) = true := by
  cases ms with
  | nil =>
      rw [show serObjTail gap ind [] = [] from rfl, List.nil_append]
      unfold nlIndent
      split
      · rw [List.nil_append]
        exact numDelim_cons _ (by decide)
      · rw [List.cons_append]
        exact numDelim_cons _ (by decide)
  | cons m ms2 =>
      rcases m with ⟨k, v⟩
      rw [serObjTail_cons_append]
      exact numDelim_cons _ (by decide)

theorem serL_length_pos {v : Json} (hwf : wfJson v = true) (gap ind : List Char) :
    1 ≤ (serL gap ind v).length := by
  obtain ⟨c, t, hl, _⟩ := serL_head hwf gap ind
  rw [hl]
  simp

/-- The `[`-dispatch of `parseVal`, after any leading whitespace. -/
theorem parseVal_bracket (f : Nat) {w : List Char} (hw : wsOnly w) (r : List Char) :
    parseVal (f + 1) (w ++ ('[' :: r))
      = (match skipWs r with
         | [] => .error "Unexpected end of JSON input"
         | c2 :: r2 =>
           if c2 = ']' then .ok (.arr [], r2)
           else match parseElems f (c2 :: r2) with
                | .ok p => .ok (.arr p.1, p.2)
                | .error e => .error e) := by
  rw [parseVal, skipWs_ws_append hw, skipWs_cons_not _ (by decide)]
  rfl

/-- The `{`-dispatch of `parseVal`, after any leading whitespace. -/
theorem parseVal_brace (f : Nat) {w : List Char} (hw : wsOnly w) (r : List Char) :
    parseVal (f + 1) (w ++ ('{' :: r))
      = (match skipWs r with
         | [] => .error "Unexpected end of JSON input"
         | c2 :: r2 =>
           if c2 = '}' then .ok (.obj [], r2)
           else match parseMembers f (c2 :: r2) with
                | .ok p => .ok (.obj (dedupMembers p.1), p.2)
                | .error e => .error e) := by
  rw [parseVal, skipWs_ws_append hw, skipWs_cons_not _ (by decide)]
  rfl

/-- Unfold one `parseElems` step once the element's parse is known. -/
theorem parseElems_ok (f : Nat) {cs T : List Char} {v : Json}
    (h : parseVal f cs = .ok (v, T)) :
    parseElems (f + 1) cs
      = (match skipWs T with
         | [] => Except.error "Expected comma or closing bracket in JSON array"
         | c :: r =>
           if c = ',' then
             match parseElems f r with
             | .ok q => .ok (v :: q.1, q.2)
             | .error e => .error e
           else if c = ']' then .ok ([v], r)
           else Except.error "Expected comma or closing bracket in JSON array") := by
  rw [parseElems, h]

theorem parseElems_comma (f : Nat) {cs T R : List Char} {v : Json}
    (h : parseVal f cs = .ok (v, T)) (hT : skipWs T = ',' :: R) :
    parseElems (f + 1) cs
      = (match parseElems f R with
         | .ok q => .ok (v :: q.1, q.2)
         | .error e => .error e) := by
  rw [parseElems_ok f h, hT]
  rfl

theorem parseElems_close (f : Nat) {cs T R : List Char} {v : Json}
    (h : parseVal f cs = .ok (v, T)) (hT : skipWs T = ']' :: R) :
    parseElems (f + 1) cs = .ok ([v], R) := by
  rw [parseElems_ok f h, hT]
  rfl

/-- Unfold one `parseMembers` step: a serialized key, the colon, and a
member value whose parse is known. -/
theorem parseMembers_ok (f : Nat) {w : List Char} (hw : wsOnly w) (k : String)
    {r T : List Char} {v : Json} (hval : parseVal f r = .ok (v, T)) :
    parseMembers (f + 1) (w ++ (quoteChars k.data ++ (':' :: r)))
      = (match skipWs T with
         | [] => Except.error "Expected comma or closing brace in JSON object"
         | c3 :: r3 =>
           if c3 = ',' then
             match parseMembers f r3 with
             | .ok q => .ok ((k, v) :: q.1, q.2)
             | .error e => .error e
           else if c3 = '}' then .ok ([(k, v)], r3)
           else Except.error "Expected comma or closing brace in JSON object") := by
  have hsh : quoteChars k.data ++ (':' :: r)
      = '"' :: (k.data.flatMap escapeChar ++ '"' :: (':' :: r)) := by
    simp [quoteChars]
  have hsb := parseStringBody_flat k.data
      ((k.data.flatMap escapeChar ++ '"' :: (':' :: r)).length + 1) [] (':' :: r)
      (by
        have h1 := le_length_flatMap_escape k.data
        simp only [List.length_append, List.length_cons]
        omega)
  rw [parseMembers, skipWs_ws_append hw, hsh, @skipWs_cons_not '"' _ (by decide)]
  simp [strMk_data] at hsb
  simp [hsb, hval, @skipWs_cons_not ':' r (by decide)]

theorem parseMembers_comma (f : Nat) {w : List Char} (hw : wsOnly w) (k : String)
    {r T R : List Char} {v : Json} (hval : parseVal f r = .ok (v, T))
    (hT : skipWs T = ',' :: R) :
    parseMembers (f + 1) (w ++ (quoteChars k.data ++ (':' :: r)))
      = (match parseMembers f R with
         | .ok q => .ok ((k, v) :: q.1, q.2)
         | .error e => .error e) := by
  rw [parseMembers_ok f hw k hval, hT]
  rfl

theorem parseMembers_close (f : Nat) {w : List Char} (hw : wsOnly w) (k : String)
    {r T R : List Char} {v : Json} (hval : parseVal f r = .ok (v, T))
    (hT : skipWs T = '}' :: R) :
    parseMembers (f + 1) (w ++ (quoteChars k.data ++ (':' :: r))) = .ok ([(k, v)], R) := by
  rw [parseMembers_ok f hw k hval, hT]
  rfl

/-- The `[`-dispatch continued past a non-`]` head. -/
theorem parseVal_bracket_go (f : Nat) {w r : List Char} (hw : wsOnly w) {c2 : Char}
    {r2 : List Char} (hT : skipWs r = c2 :: r2) (hc2 : c2 ≠ ']') :
    parseVal (f + 1) (w ++ ('[' :: r))
      = (match parseElems f (c2 :: r2) with
         | .ok p => .ok (.arr p.1, p.2)
         | .error e => .error e) := by
  rw [parseVal_bracket f hw, hT]
  simp [hc2]

/-- The `{`-dispatch continued past a non-`}` head. -/
theorem parseVal_brace_go (f : Nat) {w r : List Char} (hw : wsOnly w) {c2 : Char}
    {r2 : List Char} (hT : skipWs r = c2 :: r2) (hc2 : c2 ≠ '}') :
    parseVal (f + 1) (w ++ ('{' :: r))
      = (match parseMembers f (c2 :: r2) with
         | .ok p => .ok (.obj (dedupMembers p.1), p.2)
         | .error e => .error e) := by
  rw [parseVal_brace f hw, hT]
  simp [hc2]

/-!
### The round trip: parsing a serialized well-formed value

The three mutually recursive statements mirror the serializer: a value
with any whitespace-only prefix and a number-delimiting remainder; the
elements of a non-empty array up to its closing bracket; the members of a
non-empty object up to its closing brace.
-/

mutual
/-- Parsing a serialized well-formed value (any whitespace prefix, any
delimiter-headed remainder) recovers the value exactly. -/
theorem rt_val : ∀ (v : Json) (gap ind : List Char) (fuel : Nat) (w rest : List Char),
    wfJson v = true → wsOnly gap → wsOnly ind → wsOnly w →
    (serL gap ind v).length < fuel → numDelim rest = true →
    parseVal fuel (w ++ (serL gap ind v ++ rest)) = .ok (infToNull v, rest)
  | .null, gap, ind, fuel, w, rest => by
      intro _ _ _ hw hlen _
      match fuel with
      | 0 => exact absurd hlen (Nat.not_lt_zero _)
      | f + 1 => exact parseVal_atom_null f hw rest
  | .bool true, gap, ind, fuel, w, rest => by
      intro _ _ _ hw hlen _
      match fuel with
      | 0 => exact absurd hlen (Nat.not_lt_zero _)
      | f + 1 => exact parseVal_atom_true f hw rest
  | .bool false, gap, ind, fuel, w, rest => by
      intro _ _ _ hw hlen _
      match fuel with
      | 0 => exact absurd hlen (Nat.not_lt_zero _)
      | f + 1 => exact parseVal_atom_false f hw rest
  | .num nv, gap, ind, fuel, w, rest => by
      intro hwf _ _ hw hlen hrest
      match fuel with
      | 0 => exact absurd hlen (Nat.not_lt_zero _)
      | f + 1 =>
        cases nv with
        | fin neg s n => exact parseVal_atom_numfin hwf f hw hrest
        | inf b => exact parseVal_atom_null f hw rest
  | .str s, gap, ind, fuel, w, rest => by
      intro _ _ _ hw hlen _
      match fuel with
      | 0 => exact absurd hlen (Nat.not_lt_zero _)
      | f + 1 => exact parseVal_atom_str s f hw rest
  | .arr [], gap, ind, fuel, w, rest => by
      intro _ _ _ hw hlen _
      match fuel with
      | 0 => exact absurd hlen (Nat.not_lt_zero _)
      | f + 1 =>
        rw [show serL gap ind (.arr []) ++ rest = '[' :: (']' :: rest) from rfl,
          parseVal_bracket f hw, @skipWs_cons_not ']' rest (by decide)]
        rfl
  | .arr (e :: es), gap, ind, fuel, w, rest => by
      intro hwf hgap hind hw hlen hrest
      have hwfa : (wfJson e && wfArr es) = true := hwf
      rw [Bool.and_eq_true] at hwfa
      obtain ⟨hwe, hwes⟩ := hwfa
      have hind2 : wsOnly (ind ++ gap) := wsOnly_append hind hgap
      match fuel with
      | 0 => exact absurd hlen (Nat.not_lt_zero _)
      | f + 1 =>
        have hb : (serL gap (ind ++ gap) e).length
            + (serArrTail gap (ind ++ gap) es).length + 1 < f := by
          have h := hlen
          simp only [serL, List.length_cons, List.length_append, List.length_nil] at h
          omega
        obtain ⟨c2, t2, hl2, hws2, hrb2, hob2⟩ := serL_head hwe gap (ind ++ gap)
        have hT : skipWs (nlIndent gap (ind ++ gap) ++ (serL gap (ind ++ gap) e
            ++ (serArrTail gap (ind ++ gap) es ++ (nlIndent gap ind ++ (']' :: rest)))))
            = c2 :: (t2 ++ (serArrTail gap (ind ++ gap) es
                ++ (nlIndent gap ind ++ (']' :: rest)))) := by
          rw [skipWs_ws_serL hwe gap (ind ++ gap) (wsOnly_nlIndent gap hind2), hl2,
            List.cons_append]
        rw [serL_arr_cons_append, parseVal_bracket_go f hw hT hrb2]
        have helem := rt_elems e es gap (ind ++ gap) ind f [] rest hwe hwes hgap hind2
          hind wsOnly_nil hb
        rw [List.nil_append, hl2, List.cons_append] at helem
        rw [helem]
        rfl
  | .obj [], gap, ind, fuel, w, rest => by
      intro _ _ _ hw hlen _
      match fuel with
      | 0 => exact absurd hlen (Nat.not_lt_zero _)
      | f + 1 =>
        rw [show serL gap ind (.obj []) ++ rest = '{' :: ('}' :: rest) from rfl,
          parseVal_brace f hw, @skipWs_cons_not '}' rest (by decide)]
        rfl
  | .obj ((k, v) :: ms), gap, ind, fuel, w, rest => by
      intro hwf hgap hind hw hlen hrest
      have hwfo : (noDupKeys ((k, v) :: ms) && wfObj ((k, v) :: ms)) = true := hwf
      rw [Bool.and_eq_true] at hwfo
      obtain ⟨hnd, hwo⟩ := hwfo
      have hwo2 : (wfJson v && wfObj ms) = true := hwo
      rw [Bool.and_eq_true] at hwo2
      obtain ⟨hwv, hwms⟩ := hwo2
      have hind2 : wsOnly (ind ++ gap) := wsOnly_append hind hgap
      match fuel with
      | 0 => exact absurd hlen (Nat.not_lt_zero _)
      | f + 1 =>
        have hb : (serL gap (ind ++ gap) v).length
            + (serObjTail gap (ind ++ gap) ms).length + 1 < f := by
          have h := hlen
          simp only [serL, quoteChars, List.length_cons, List.length_append,
            List.length_nil] at h
          omega
        have hq : quoteChars k.data ++ (':' :: (colonPad gap ++ (serL gap (ind ++ gap) v
            ++ (serObjTail gap (ind ++ gap) ms ++ (nlIndent gap ind ++ ('}' :: rest))))))
            = '"' :: (k.data.flatMap escapeChar ++ '"' :: (':' :: (colonPad gap
                ++ (serL gap (ind ++ gap) v ++ (serObjTail gap (ind ++ gap) ms
                ++ (nlIndent gap ind ++ ('}' :: rest))))))) := by
          simp [quoteChars]
        have hT : skipWs (nlIndent gap (ind ++ gap) ++ (quoteChars k.data
            ++ (':' :: (colonPad gap ++ (serL gap (ind ++ gap) v
            ++ (serObjTail gap (ind ++ gap) ms ++ (nlIndent gap ind ++ ('}' :: rest))))))))
            = '"' :: (k.data.flatMap escapeChar ++ '"' :: (':' :: (colonPad gap
                ++ (serL gap (ind ++ gap) v ++ (serObjTail gap (ind ++ gap) ms
                ++ (nlIndent gap ind ++ ('}' :: rest))))))) := by
          rw [skipWs_ws_append (wsOnly_nlIndent gap hind2), hq,
            @skipWs_cons_not '"' _ (by decide)]
        rw [serL_obj_cons_append, parseVal_brace_go f hw hT (by decide)]
        have hmem := rt_members k v ms gap (ind ++ gap) ind f [] rest hwv hwms hgap hind2
          hind wsOnly_nil hb
        rw [List.nil_append, hq] at hmem
        have hnd2 : noDupKeys ((k, infToNull v) :: infToNullObj ms) = true := by
          rw [show ((k, infToNull v) :: infToNullObj ms)
              = infToNullObj ((k, v) :: ms) from rfl, noDupKeys_infToNull]
          exact hnd
        rw [hmem]
        simp only [dedup_of_noDup hnd2]
        rfl
termination_by v _ _ _ _ _ => sizeOf v
decreasing_by
  all_goals simp
  all_goals omega
/-- Parsing the serialized elements of a non-empty array, up to the
closing bracket and its indentation, recovers the element list. -/
theorem rt_elems : ∀ (e : Json) (es : List Json) (gap ind indC : List Char) (fuel : Nat)
    (w rest : List Char),
    wfJson e = true → wfArr es = true → wsOnly gap → wsOnly ind → wsOnly indC →
    wsOnly w →
    (serL gap ind e).length + (serArrTail gap ind es).length + 1 < fuel →
    parseElems fuel (w ++ (serL gap ind e ++ (serArrTail gap ind es
      ++ (nlIndent gap indC ++ (']' :: rest)))))
      = .ok (infToNull e :: infToNullArr es, rest)
  | e, es, gap, ind, indC, fuel, w, rest => by
      intro hwe hwes hgap hind hindC hw hlen
      match fuel with
      | 0 => exact absurd hlen (Nat.not_lt_zero _)
      | f + 1 =>
        have hval : parseVal f (w ++ (serL gap ind e ++ (serArrTail gap ind es
            ++ (nlIndent gap indC ++ (']' :: rest)))))
            = .ok (infToNull e,
                serArrTail gap ind es ++ (nlIndent gap indC ++ (']' :: rest))) :=
          rt_val e gap ind f w _ hwe hgap hind hw (by omega)
            (numDelim_tail_arr gap ind indC es rest)
        cases es with
        | nil =>
            have hT : skipWs (serArrTail gap ind ([] : List Json)
                ++ (nlIndent gap indC ++ (']' :: rest))) = ']' :: rest := by
              rw [show serArrTail gap ind [] = [] from rfl, List.nil_append,
                skipWs_ws_append (wsOnly_nlIndent gap hindC),
                @skipWs_cons_not ']' rest (by decide)]
            exact parseElems_close f hval hT
        | cons x xs =>
            have hwfa : (wfJson x && wfArr xs) = true := hwes
            rw [Bool.and_eq_true] at hwfa
            obtain ⟨hwx, hwxs⟩ := hwfa
            have hb2 : (serL gap ind x).length + (serArrTail gap ind xs).length + 1 < f := by
              have h := hlen
              simp only [serArrTail, List.length_cons, List.length_append,
                List.length_nil] at h
              omega
            have hT : skipWs (serArrTail gap ind (x :: xs)
                ++ (nlIndent gap indC ++ (']' :: rest)))
                = ',' :: (nlIndent gap ind ++ (serL gap ind x
                    ++ (serArrTail gap ind xs ++ (nlIndent gap indC ++ (']' :: rest))))) := by
              rw [serArrTail_cons_append, @skipWs_cons_not ',' _ (by decide)]
            rw [parseElems_comma f hval hT]
            rw [rt_elems x xs gap ind indC f (nlIndent gap ind) rest hwx hwxs hgap hind
              hindC (wsOnly_nlIndent gap hind) hb2]
            rfl
termination_by e es _ _ _ _ _ _ => sizeOf e + sizeOf es + 1
decreasing_by
  all_goals simp
  all_goals omega
/-- Parsing the serialized members of a non-empty object, up to the
closing brace and its indentation, recovers the member list. -/
theorem rt_members : ∀ (k : String) (v : Json) (ms : List (String × Json))
    (gap ind indC : List Char) (fuel : Nat) (w rest : List Char),
    wfJson v = true → wfObj ms = true → wsOnly gap → wsOnly ind → wsOnly indC →
    wsOnly w →
    (serL gap ind v).length + (serObjTail gap ind ms).length + 1 < fuel →
    parseMembers fuel (w ++ (quoteChars k.data ++ (':' :: (colonPad gap
      ++ (serL gap ind v ++ (serObjTail gap ind ms
      ++ (nlIndent gap indC ++ ('}' :: rest))))))))
      = .ok ((k, infToNull v) :: infToNullObj ms, rest)
  | k, v, ms, gap, ind, indC, fuel, w, rest => by
      intro hwv hwms hgap hind hindC hw hlen
      match fuel with
      | 0 => exact absurd hlen (Nat.not_lt_zero _)
      | f + 1 =>
        have hval : parseVal f (colonPad gap ++ (serL gap ind v ++ (serObjTail gap ind ms
            ++ (nlIndent gap indC ++ ('}' :: rest)))))
            = .ok (infToNull v,
                serObjTail gap ind ms ++ (nlIndent gap indC ++ ('}' :: rest))) :=
          rt_val v gap ind f (colonPad gap) _ hwv hgap hind (wsOnly_colonPad gap)
            (by omega) (numDelim_tail_obj gap ind indC ms rest)
        cases ms with
        | nil =>
            have hT : skipWs (serObjTail gap ind ([] : List (String × Json))
                ++ (nlIndent gap indC ++ ('}' :: rest))) = '}' :: rest := by
              rw [show serObjTail gap ind [] = [] from rfl, List.nil_append,
                skipWs_ws_append (wsOnly_nlIndent gap hindC),
                @skipWs_cons_not '}' rest (by decide)]
            exact parseMembers_close f hw k hval hT
        | cons m ms2 =>
            rcases m with ⟨k2, v2⟩
            have hwo : (wfJson v2 && wfObj ms2) = true := hwms
            rw [Bool.and_eq_true] at hwo
            obtain ⟨hwv2, hwms2⟩ := hwo
            have hb2 : (serL gap ind v2).length + (serObjTail gap ind ms2).length + 1
                < f := by
              have h := hlen
              simp only [serObjTail, quoteChars, List.length_cons, List.length_append,
                List.length_nil] at h
              omega
            have hT : skipWs (serObjTail gap ind ((k2, v2) :: ms2)
                ++ (nlIndent gap indC ++ ('}' :: rest)))
                = ',' :: (nlIndent gap ind ++ (quoteChars k2.data ++ (':' :: (colonPad gap
                    ++ (serL gap ind v2 ++ (serObjTail gap ind ms2
                    ++ (nlIndent gap indC ++ ('}' :: rest)))))))) := by
              rw [serObjTail_cons_append, @skipWs_cons_not ',' _ (by decide)]
            rw [parseMembers_comma f hw k hval hT]
            rw [rt_members k2 v2 ms2 gap ind indC f (nlIndent gap ind) rest hwv2 hwms2
              hgap hind hindC (wsOnly_nlIndent gap hind) hb2]
            rfl
termination_by _ v ms _ _ _ _ _ _ => sizeOf v + sizeOf ms + 1
decreasing_by
  all_goals simp
  all_goals omega
end

/-!
### Parsed values are well-formed
-/

/-- Every value the parser produces satisfies `wfJson`: numbers passed the
grammar check and object keys were deduplicated. -/
theorem parse_wf : ∀ fuel : Nat,
    (∀ cs v rest, parseVal fuel cs = .ok (v, rest) → wfJson v = true) ∧
    (∀ cs l rest, parseElems fuel cs = .ok (l, rest) → wfArr l = true) ∧
    (∀ cs l rest, parseMembers fuel cs = .ok (l, rest) → wfObj l = true) := by
  intro fuel
  induction fuel with
  | zero =>
      refine ⟨?_, ?_, ?_⟩ <;> intro cs x rest h <;> exact Except.noConfusion h
  | succ f ih =>
      obtain ⟨ihv, ihe, ihm⟩ := ih
      refine ⟨?_, ?_, ?_⟩
      · intro cs v rest h
        rw [parseVal] at h
        simp only [] at h
        repeat' split at h
        all_goals try exact Except.noConfusion h
        all_goals cases h
        all_goals try rfl
        · exact ihe _ _ _ (by assumption)
        · simp only [wfJson, Bool.and_eq_true]
          exact ⟨noDupKeys_dedup _, wfObj_dedup (ihm _ _ _ (by assumption))⟩
        · exact wfNum_numValue _
      · intro cs l rest h
        rw [parseElems] at h
        repeat' split at h
        all_goals try exact Except.noConfusion h
        all_goals cases h
        · simp only [wfArr, Bool.and_eq_true]
          exact ⟨ihv _ _ _ (by assumption), ihe _ _ _ (by assumption)⟩
        · simp only [wfArr, Bool.and_eq_true]
          exact ⟨ihv _ _ _ (by assumption), trivial⟩
      · intro cs l rest h
        rw [parseMembers] at h
        repeat' split at h
        all_goals try exact Except.noConfusion h
        all_goals cases h
        · simp only [wfObj, Bool.and_eq_true]
          exact ⟨ihv _ _ _ (by assumption), ihm _ _ _ (by assumption)⟩
        · simp only [wfObj, Bool.and_eq_true]
          exact ⟨ihv _ _ _ (by assumption), trivial⟩

theorem parseJson_wf {s : String} {v : Json} (h : parseJson s = .ok v) :
    wfJson v = true := by
  unfold parseJson parseJsonChars at h
  split at h
  · exact Except.noConfusion h
  next p heq =>
    split at h
    · cases h
      exact (parse_wf _).1 _ _ _ heq
    · exact Except.noConfusion h

/-!
### Serializations of the same value differ only in whitespace
-/

theorem stripChars_append (a b : List Char) :
    stripChars (a ++ b) = stripChars a ++ stripChars b := by
  simp [stripChars]

theorem stripChars_ws : ∀ {w : List Char}, wsOnly w → stripChars w = []
  | [], _ => rfl
  | c :: t, hw => by
      have hc : isWsChar c = true := hw c (by simp)
      have ih := stripChars_ws (fun x hx => hw x (by simp [hx]) : wsOnly t)
      simp only [stripChars, List.filter_cons] at ih ⊢
      simp [hc, ih]

theorem stripChars_nil : stripChars [] = [] := rfl

theorem nlIndent_nil (ind : List Char) : nlIndent [] ind = [] := rfl

theorem colonPad_nil : colonPad [] = [] := rfl

theorem stripChars_cons_not {c : Char} (h : isWsChar c = false) (l : List Char) :
    stripChars (c :: l) = c :: stripChars l := by
  simp [stripChars, List.filter_cons, h]

mutual
/-- Erasing whitespace from a serialization gives the same characters
whatever (whitespace-only) gap and indentation were used. -/
theorem ser_strip : ∀ (v : Json) (gap ind : List Char), wsOnly gap → wsOnly ind →
    stripChars (serL gap ind v) = stripChars (serL [] [] v)
  | .null, gap, ind => by intro _ _; rfl
  | .bool true, gap, ind => by intro _ _; rfl
  | .bool false, gap, ind => by intro _ _; rfl
  | .num v, gap, ind => by intro _ _; rfl
  | .str s, gap, ind => by intro _ _; rfl
  | .arr [], gap, ind => by intro _ _; rfl
  | .arr (e :: es), gap, ind => by
      intro hgap hind
      have hind2 : wsOnly (ind ++ gap) := wsOnly_append hind hgap
      have he := ser_strip e gap (ind ++ gap) hgap hind2
      have hes := ser_strip_arr es gap (ind ++ gap) hgap hind2
      simp [serL, stripChars_append, stripChars_ws (wsOnly_nlIndent gap hind2),
        stripChars_ws (wsOnly_nlIndent gap hind), stripChars_cons_not, isWsChar,
        nlIndent_nil, stripChars_nil, he, hes]
  | .obj [], gap, ind => by intro _ _; rfl
  | .obj ((k, v) :: ms), gap, ind => by
      intro hgap hind
      have hind2 : wsOnly (ind ++ gap) := wsOnly_append hind hgap
      have hv := ser_strip v gap (ind ++ gap) hgap hind2
      have hms := ser_strip_obj ms gap (ind ++ gap) hgap hind2
      simp [serL, stripChars_append, stripChars_ws (wsOnly_nlIndent gap hind2),
        stripChars_ws (wsOnly_nlIndent gap hind), stripChars_ws (wsOnly_colonPad gap),
        stripChars_cons_not, isWsChar, nlIndent_nil, colonPad_nil, stripChars_nil,
        hv, hms]
termination_by v _ _ => sizeOf v
decreasing_by
  all_goals simp
  all_goals omega
theorem ser_strip_arr : ∀ (es : List Json) (gap ind : List Char), wsOnly gap →
    wsOnly ind → stripChars (serArrTail gap ind es) = stripChars (serArrTail [] [] es)
  | [], gap, ind => by intro _ _; rfl
  | e :: es, gap, ind => by
      intro hgap hind
      have he := ser_strip e gap ind hgap hind
      have hes := ser_strip_arr es gap ind hgap hind
      simp [serArrTail, stripChars_append, stripChars_ws (wsOnly_nlIndent gap hind),
        stripChars_cons_not, isWsChar, nlIndent_nil, stripChars_nil, he, hes]
termination_by es _ _ => sizeOf es
decreasing_by
  all_goals simp
  all_goals omega
theorem ser_strip_obj : ∀ (ms : List (String × Json)) (gap ind : List Char), wsOnly gap →
    wsOnly ind → stripChars (serObjTail gap ind ms) = stripChars (serObjTail [] [] ms)
  | [], gap, ind => by intro _ _; rfl
  | (k, v) :: ms, gap, ind => by
      intro hgap hind
      have hv := ser_strip v gap ind hgap hind
      have hms := ser_strip_obj ms gap ind hgap hind
      simp [serObjTail, stripChars_append, stripChars_ws (wsOnly_nlIndent gap hind),
        stripChars_ws (wsOnly_colonPad gap), stripChars_cons_not, isWsChar,
        nlIndent_nil, colonPad_nil, stripChars_nil, hv, hms]
termination_by ms _ _ => sizeOf ms
decreasing_by
  all_goals simp
  all_goals omega
end

/-!
### The full stringify/parse round trip
-/

/-- `JSON.parse(JSON.stringify(v, null, spaces))` recovers `v` for every
well-formed value and every indentation width. -/
theorem parseJson_stringify {v : Json} (hwf : wfJson v = true) (spaces : Nat) :
    parseJson (jsonStringify v spaces) = .ok (infToNull v) := by
  have hgap : wsOnly (List.replicate (min spaces 10) ' ') := wsOnly_replicate _
  have hrt := rt_val v (List.replicate (min spaces 10) ' ') []
      ((serL (List.replicate (min spaces 10) ' ') [] v).length + 1) [] [] hwf hgap
      wsOnly_nil wsOnly_nil (by omega) (by rfl)
  rw [List.nil_append, List.append_nil] at hrt
  show parseJsonChars (serL (List.replicate (min spaces 10) ' ') [] v)
    = .ok (infToNull v)
  unfold parseJsonChars
  rw [hrt]
  rfl

mutual
/-- On a value without infinities, `infToNull` is the identity. -/
theorem infToNull_id : ∀ v : Json, jsonFinite v = true → infToNull v = v
  | .null => fun _ => rfl
  | .bool b => fun _ => rfl
  | .str s => fun _ => rfl
  | .num (.fin neg s n) => fun _ => rfl
  | .num (.inf b) => fun h => absurd h (by simp [jsonFinite])
  | .arr es => fun h => by
      rw [show infToNull (.arr es) = .arr (infToNullArr es) from rfl,
        infToNullArr_id es h]
  | .obj ms => fun h => by
      rw [show infToNull (.obj ms) = .obj (infToNullObj ms) from rfl,
        infToNullObj_id ms h]
termination_by v => sizeOf v
decreasing_by
  all_goals simp
  all_goals omega
theorem infToNullArr_id : ∀ es : List Json, jsonFiniteArr es = true →
    infToNullArr es = es
  | [] => fun _ => rfl
  | e :: es => fun h => by
      have h2 : (jsonFinite e && jsonFiniteArr es) = true := h
      rw [Bool.and_eq_true] at h2
      rw [show infToNullArr (e :: es) = infToNull e :: infToNullArr es from rfl,
        infToNull_id e h2.1, infToNullArr_id es h2.2]
termination_by es => sizeOf es
decreasing_by
  all_goals simp
  all_goals omega
theorem infToNullObj_id : ∀ ms : List (String × Json), jsonFiniteObj ms = true →
    infToNullObj ms = ms
  | [] => fun _ => rfl
  | (k, v) :: ms => fun h => by
      have h2 : (jsonFinite v && jsonFiniteObj ms) = true := h
      rw [Bool.and_eq_true] at h2
      rw [show infToNullObj ((k, v) :: ms) = (k, infToNull v) :: infToNullObj ms from rfl,
        infToNull_id v h2.1, infToNullObj_id ms h2.2]
termination_by ms => sizeOf ms
decreasing_by
  all_goals simp
  all_goals omega
end

/-- C3 as stated is false: `1e999` is valid JSON, but its value overflows
binary64 — `JSON.parse` yields `Infinity`, `JSON.stringify` re-serializes
that as `null`, and both the compact and the pretty payloads parse back
to `null`, not to the original parsed value. -/
theorem claim3_counterexample :
    parseJson "1e999" = .ok (.num (.inf false)) ∧
    preparePayload "1e999" [] = .ok { jsonString := "null", bytes := 4 } ∧
    preparePayload "1e999" [("compact", .tru)]
      = .ok { jsonString := "null", bytes := 4 } ∧
    parseJson "null" = .ok .null ∧
    Json.null ≠ Json.num (.inf false) := by
  refine ⟨rfl, rfl, rfl, rfl, ?_⟩
  intro h
  exact Json.noConfusion h

/-- C3 (amended): for every valid JSON input (any raw string the parser
accepts as the value `v`), preparing the payload with a truthy `compact`
option and with a non-truthy one both succeed, the two serializations
differ only in whitespace (erasing JSON whitespace makes them equal),
and they parse back to one common value — the original `v` whenever no
number of `v` overflowed to an infinity (an overflowing literal such as
`1e999` comes back as `null` instead). -/
theorem claim3_compact_pretty_roundtrip (raw : String) (v : Json) (optsC optsP : Args)
    (hparse : parseJson raw = .ok v)
    (hC : truthy (getArg optsC "compact") = true)
    (hP : truthy (getArg optsP "compact") = false) :
    ∃ (pc pp : Payload) (v2 : Json),
      preparePayload raw optsC = .ok pc ∧ preparePayload raw optsP = .ok pp ∧
      parseJson pc.jsonString = .ok v2 ∧ parseJson pp.jsonString = .ok v2 ∧
      stripWsStr pc.jsonString = stripWsStr pp.jsonString ∧
      (jsonFinite v = true → v2 = v) := by
  have hwf : wfJson v = true := parseJson_wf hparse
  refine ⟨⟨jsonStringify v 0, (jsonStringify v 0).utf8ByteSize⟩,
    ⟨jsonStringify v 2, (jsonStringify v 2).utf8ByteSize⟩, infToNull v,
    ?_, ?_, ?_, ?_, ?_, ?_⟩
  · unfold preparePayload
    rw [hparse]
    simp [hC]
  · unfold preparePayload
    rw [hparse]
    simp [hP]
  · exact parseJson_stringify hwf 0
  · exact parseJson_stringify hwf 2
  · show String.mk (stripChars (serL (List.replicate (min 0 10) ' ') [] v))
      = String.mk (stripChars (serL (List.replicate (min 2 10) ' ') [] v))
    rw [ser_strip v (List.replicate (min 0 10) ' ') [] (wsOnly_replicate _) wsOnly_nil,
      ser_strip v (List.replicate (min 2 10) ' ') [] (wsOnly_replicate _) wsOnly_nil]
  · exact fun hfin => infToNull_id v hfin

/-- C3 witness: the concrete document `{"a":1}` (no infinities) with
`--compact` set in one option mapping and absent in the other. -/
theorem claim3_witness :
    parseJson "\x7b\"a\":1\x7d" = .ok (.obj [("a", .num (.fin false 1 1))]) ∧
    truthy (getArg [("compact", .tru)] "compact") = true ∧
    truthy (getArg [] "compact") = false ∧
    (∃ (pc pp : Payload) (v2 : Json),
      preparePayload "\x7b\"a\":1\x7d" [("compact", .tru)] = .ok pc ∧
      preparePayload "\x7b\"a\":1\x7d" [] = .ok pp ∧
      parseJson pc.jsonString = .ok v2 ∧
      parseJson pp.jsonString = .ok v2 ∧
      stripWsStr pc.jsonString = stripWsStr pp.jsonString ∧
      (jsonFinite (Json.obj [("a", .num (.fin false 1 1))]) = true
        → v2 = .obj [("a", .num (.fin false 1 1))])) :=
  ⟨rfl, rfl, rfl,
    claim3_compact_pretty_roundtrip "\x7b\"a\":1\x7d"
      (.obj [("a", .num (.fin false 1 1))]) [("compact", .tru)] [] rfl rfl rfl⟩

end UploadJson
